import Mathlib

/-!
Verification of the pg-strom chunked data store (src/datastore.c) and the
GpuScan completion callback (src/gpuscan.c) against their natural-language
specification.  The C code is embedded shallowly: the chunk buffer becomes a
total function from byte addresses to tagged cells, the mutating C functions
become pure state transformers, and fallible paths become explicit result
constructors.  Layout macros that live in repository headers outside the two
given source files are modelled from the specification and marked as such.
-/

namespace PgStrom

/-- C TYPEALIGN: round `n` up to the next multiple of `k` (power-of-two in C). -/
def alignUp (k n : Nat) : Nat := k * ((n + k - 1) / k)

/-- C TYPEALIGN_DOWN: round `n` down to a multiple of `k`. -/
def alignDown (k n : Nat) : Nat := k * (n / k)

/-- Modelled from the spec: the STROMALIGN macro of the repository headers,
an alignment boundary used for all chunk-layout arithmetic; unit 16 bytes. -/
def stromAlign (n : Nat) : Nat := alignUp 16 n

/-- Modelled from the spec: STROMALIGN_DOWN, rounding down to the same boundary. -/
def stromAlignDown (n : Nat) : Nat := alignDown 16 n

/-- PostgreSQL LONGALIGN: align to 8 bytes. -/
def longAlign (n : Nat) : Nat := alignUp 8 n

/-- PostgreSQL MAXALIGN: align to 8 bytes. -/
def maxAlign (n : Nat) : Nat := alignUp 8 n

/-- PostgreSQL storage page size. -/
def BLCKSZ : Nat := 8192

/-- Size of a PostgreSQL Datum in bytes. -/
def sizeofDatum : Nat := 8

/-- Size of `cl_uint`, the type of a row-index entry, in bytes. -/
def sizeofCLUint : Nat := 4

/-- Modelled from the spec: byte offset of the per-column metadata array
inside the `kern_data_store` header. -/
def kdsColmetaOff : Nat := 64

/-- Modelled from the spec: size of one `kern_colmeta` entry in bytes. -/
def colmetaSize : Nat := 16

/-- Modelled from the spec: KDS_CALCULATE_HEAD_LENGTH, the aligned size of the
chunk header including one metadata entry per column. -/
def headLen (ncols : Nat) : Nat := stromAlign (kdsColmetaOff + colmetaSize * ncols)

/-- Modelled from the spec: the `__KDS_NSLOTS` hash-friendly bucket count,
some count at least as large as the record count. -/
def kdsNSlots (nitems : Nat) : Nat := nitems + nitems / 8

/-- Modelled from the spec: KDS_CALCULATE_ROW_FRONTLEN, bytes of header plus
row-index array for a Row-format chunk holding `nitems` records. -/
def rowFrontLen (ncols nitems : Nat) : Nat :=
  headLen ncols + stromAlign (sizeofCLUint * nitems)

/-- Modelled from the spec: KDS_CALCULATE_ROW_LENGTH, the minimum Row-format
buffer size for `nitems` records and `usage` payload bytes. -/
def rowLengthEst (ncols nitems usage : Nat) : Nat :=
  rowFrontLen ncols nitems + stromAlign usage

/-- Modelled from the spec: KDS_CALCULATE_HASH_FRONTLEN, which additionally
accounts for the open-hash bucket table of a Hash-format chunk. -/
def hashFrontLen (ncols nitems : Nat) : Nat :=
  headLen ncols + stromAlign (sizeofCLUint * kdsNSlots nitems) +
    stromAlign (sizeofCLUint * nitems)

/-- Modelled from the spec: KDS_CALCULATE_HASH_LENGTH, the minimum Hash-format
buffer size for `nitems` records and `usage` payload bytes. -/
def hashLengthEst (ncols nitems usage : Nat) : Nat :=
  hashFrontLen ncols nitems + stromAlign usage

/-- Modelled from the spec: byte offset of the record payload `htup` inside a
`kern_tupitem` record header (a 4-byte length word followed by a 6-byte
item pointer). -/
def tupHdrSz : Nat := 10

/-- Modelled from the spec: byte offset of the embedded `kern_tupitem` inside a
`kern_hashitem` (hash value, chain pointer and row id, 4 bytes each). -/
def hashitemTOff : Nat := 12

/-- Modelled from the spec: byte offset of the record payload inside a
`kern_hashitem`, the `offsetof(kern_hashitem, t.htup)` of the source. -/
def hashitemHtupOff : Nat := hashitemTOff + tupHdrSz

/-- One byte of the chunk buffer.  Scalar header fields of stored records keep
their abstract value in the cell at their first byte; the remaining bytes of a
multi-byte field are `pad`.  Any write clobbers whole byte ranges, so overlap
bugs remain representable. -/
inductive Cell where
  | uninit
  | pad
  | idx (v : Nat)
  | lenv (v : Nat)
  | selfv (v : Nat)
  | bytev (v : Nat)
  | hashv (v : Nat)
  | nextv (v : Nat)
  | rowidv (v : Nat)
  | datumv (v : Nat)
  | nullv (v : Bool)
  deriving DecidableEq, Repr

/-- A heap tuple handed to the store: the 6-byte item pointer (kept abstract as
one value) plus the `t_len` payload bytes; `t_len` is the payload length. -/
structure Tuple where
  t_self : Nat
  data : List Nat
  deriving DecidableEq, Repr

/-- The stored tuple length `t_len`. -/
def Tuple.t_len (t : Tuple) : Nat := t.data.length

/-- The four chunk formats of `kern_data_store`. -/
inductive KdsFormat where
  | row
  | slot
  | hash
  | block
  deriving DecidableEq, Repr

/-- Shallow embedding of `kern_data_store` together with its buffer: the fixed
header scalars become fields, the rest of the buffer is a total function from
byte offsets (relative to the chunk head) to cells.  The Hash-format bucket
table is kept as its own front-region array `hashSlot`. -/
structure KDS where
  length : Nat
  usage : Nat
  ncols : Nat
  nitems : Nat
  nrooms : Nat
  nslots : Nat
  format : KdsFormat
  buf : Nat → Cell
  hashSlot : Nat → Nat

/-- Byte address of row-index entry `i` (a `cl_uint` directly after the header,
as KERN_DATA_STORE_ROWINDEX addresses it). -/
def rowIndexAddr (ncols i : Nat) : Nat := headLen ncols + sizeofCLUint * i

/-- Write one `cl_uint` row-index entry: the value sits in the first byte cell,
the remaining three bytes are clobbered to `pad`. -/
def writeIdx (b : Nat → Cell) (base v : Nat) : Nat → Cell := fun a =>
  if a = base then Cell.idx v
  else if base < a ∧ a < base + sizeofCLUint then Cell.pad
  else b a

/-- Read one `cl_uint` row-index entry. -/
def readCLUint (b : Nat → Cell) (a : Nat) : Nat :=
  match b a with
  | Cell.idx v => v
  | _ => 0

/-- Write a `kern_tupitem` at byte offset `pos`: `t_len` word, item pointer,
header padding, then the `t_len` payload bytes, exactly as the memcpy of
`PDS_insert_tuple` lays it out. -/
def writeTupitem (b : Nat → Cell) (pos : Nat) (t : Tuple) : Nat → Cell := fun a =>
  if a = pos then Cell.lenv t.t_len
  else if a = pos + 4 then Cell.selfv t.t_self
  else if pos ≤ a ∧ a < pos + tupHdrSz then Cell.pad
  else if pos + tupHdrSz ≤ a ∧ a < pos + tupHdrSz + t.t_len then
    Cell.bytev (t.data.getD (a - (pos + tupHdrSz)) 0)
  else b a

/-- Read back a `kern_tupitem` stored at byte offset `pos`, as the Row branch
of `kern_fetch_data_store` views it: length word, item pointer, payload. -/
def readTupitem (b : Nat → Cell) (pos : Nat) : Tuple :=
  let L : Nat :=
    match b pos with
    | Cell.lenv v => v
    | _ => 0
  let S : Nat :=
    match b (pos + 4) with
    | Cell.selfv v => v
    | _ => 0
  { t_self := S
    data := (List.range L).map fun k =>
      match b (pos + tupHdrSz + k) with
      | Cell.bytev v => v
      | _ => 0 }

/-- Result of `PDS_insert_tuple` / `PDS_insert_hashitem`: `ok` is the C `true`
return with the updated store, `full` the non-fatal `false` return carrying the
store as the function left it, `fatal` an `elog(ERROR)` exit. -/
inductive InsertResult where
  | ok (s : KDS)
  | full (s : KDS)
  | fatal

/-- Whether an insertion outcome is the non-fatal `false` return. -/
def InsertResult.isFull : InsertResult → Bool
  | InsertResult.full _ => true
  | _ => false

/-- Required aligned bytes for one Row record, the
`LONGALIGN(offsetof(kern_tupitem, htup) + tuple->t_len)` of the source. -/
def requiredOf (t : Tuple) : Nat := longAlign (tupHdrSz + t.t_len)

/-- PDS_insert_tuple (src/datastore.c:943-981): reject when no index room is
left or when the estimated Row length for one more record would exceed the
buffer, otherwise grow `usage` from the back, write the tupitem there and
append its offset to the row index. -/
def PDS_insert_tuple (s : KDS) (t : Tuple) : InsertResult :=
  if s.nrooms ≤ s.nitems then InsertResult.full s
  else if s.format ≠ KdsFormat.row then InsertResult.fatal
  else
    let required := requiredOf t
    if s.length < rowLengthEst s.ncols (s.nitems + 1) (required + s.usage) then
      InsertResult.full s
    else
      let usage' := s.usage + required
      let pos := s.length - usage'
      InsertResult.ok
        { s with
          usage := usage'
          nitems := s.nitems + 1
          buf := writeIdx (writeTupitem s.buf pos t) (rowIndexAddr s.ncols s.nitems) pos }

/-- Write a `kern_hashitem` at byte offset `base`: hash value, chain pointer
initialized to the 0x7f7f7f7f sentinel, row id, then the embedded tupitem. -/
def writeHashitem (b : Nat → Cell) (base hv rowid : Nat) (t : Tuple) : Nat → Cell := fun a =>
  if a = base then Cell.hashv hv
  else if a = base + 4 then Cell.nextv 2139062143
  else if a = base + 8 then Cell.rowidv rowid
  else if base ≤ a ∧ a < base + hashitemTOff then Cell.pad
  else writeTupitem b (base + hashitemTOff) t a

/-- Required aligned bytes for one Hash record, the
`MAXALIGN(offsetof(kern_hashitem, t.htup) + tuple->t_len)` of the source. -/
def requiredOfHash (t : Tuple) : Nat := maxAlign (hashitemHtupOff + t.t_len)

/-- PDS_insert_hashitem (src/datastore.c:989-1034): like `PDS_insert_tuple`
but for Hash format, storing the hash value and sentinel chain pointer and
recording the offset of the embedded tupitem in the row index. -/
def PDS_insert_hashitem (s : KDS) (t : Tuple) (hashValue : Nat) : InsertResult :=
  if s.nrooms ≤ s.nitems then InsertResult.full s
  else if s.format ≠ KdsFormat.hash then InsertResult.fatal
  else
    let required := requiredOfHash t
    if s.length < hashLengthEst s.ncols (s.nitems + 1) (required + s.usage) then
      InsertResult.full s
    else
      let base := s.length - (s.usage + required)
      InsertResult.ok
        { s with
          usage := s.usage + required
          nitems := s.nitems + 1
          buf := writeIdx (writeHashitem s.buf base hashValue s.nitems t)
                   (rowIndexAddr s.ncols s.nitems) (base + hashitemTOff) }

/-- Modelled from the spec: per-record stride of the Slot-format body, the
LONGALIGNed array of one (value, null-flag) pair per column. -/
def slotRowSz (ncols : Nat) : Nat := longAlign ((sizeofDatum + 1) * ncols)

/-- Modelled from the spec: KERN_DATA_STORE_VALUES, the byte address of row
`i` of the Slot-format value array. -/
def slotValuesAddr (ncols i : Nat) : Nat := headLen ncols + slotRowSz ncols * i

/-- Modelled from the spec: KERN_DATA_STORE_ISNULL, the byte address of row
`i` of the Slot-format null-flag array. -/
def slotIsnullAddr (ncols i : Nat) : Nat :=
  slotValuesAddr ncols i + sizeofDatum * ncols

/-- Decode row `i` of a Slot-format chunk: the per-column values and flags the
Slot branch of `kern_fetch_data_store` memcpys into the output slot. -/
def readSlotRow (s : KDS) (i : Nat) : List Nat × List Bool :=
  ((List.range s.ncols).map fun j =>
      match s.buf (slotValuesAddr s.ncols i + sizeofDatum * j) with
      | Cell.datumv v => v
      | _ => 0,
   (List.range s.ncols).map fun j =>
      match s.buf (slotIsnullAddr s.ncols i + j) with
      | Cell.nullv v => v
      | _ => false)

/-- Result of a fetch: a zero-copy Row view, a decoded Slot view, the
out-of-range `false` return, or the fatal unexpected-format `elog(ERROR)`. -/
inductive FetchResult where
  | view (t : Tuple)
  | slotView (vals : List Nat) (nulls : List Bool)
  | outOfRange
  | fatal
  deriving DecidableEq, Repr

/-- kern_fetch_data_store (src/datastore.c:183-231): out-of-range indices are
rejected before anything is touched; Row format returns a view over the stored
tupitem found through the row index; Slot format decodes the fixed arrays;
any other format raises the unexpected-format error. -/
def kern_fetch_data_store (s : KDS) (row_index : Nat) : FetchResult :=
  if s.nitems ≤ row_index then FetchResult.outOfRange
  else if s.format = KdsFormat.row then
    FetchResult.view
      (readTupitem s.buf (readCLUint s.buf (rowIndexAddr s.ncols row_index)))
  else if s.format = KdsFormat.slot then
    let vn := readSlotRow s row_index
    FetchResult.slotView vn.1 vn.2
  else FetchResult.fatal

/-- pgstrom_fetch_data_store (src/datastore.c:233-240): delegates to
`kern_fetch_data_store` on the embedded kds. -/
def pgstrom_fetch_data_store (s : KDS) (row_index : Nat) : FetchResult :=
  kern_fetch_data_store s row_index

/-- PDS_create_row (src/datastore.c:493-510): a fresh Row-format chunk of the
given byte size rounded down to the alignment boundary; row format cannot
bound its capacity, so `nrooms` is INT_MAX. -/
def PDS_create_row (ncols len : Nat) : KDS :=
  { length := stromAlignDown len
    usage := 0
    ncols := ncols
    nitems := 0
    nrooms := 2147483647
    nslots := 0
    format := KdsFormat.row
    buf := fun _ => Cell.uninit
    hashSlot := fun _ => 0 }

/-- Result of `PDS_expand_size`: `ok` carries the store the caller ends up
with (the old one when no expansion is needed), `err` is an `elog(ERROR)`. -/
inductive ExpandResult where
  | ok (s : KDS)
  | err

/-- The payload relocation of `PDS_expand_size`: header bytes are copied
verbatim, the `usage` payload bytes that ended at the old buffer end are
copied `shift` bytes toward the new end, everything else of the fresh
allocation is uninitialized. -/
def expandPayloadCopy (old : Nat → Cell) (ncols oldLen usage shift : Nat) :
    Nat → Cell := fun a =>
  if a < headLen ncols then old a
  else if oldLen - usage + shift ≤ a ∧ a < oldLen + shift then old (a - shift)
  else Cell.uninit

/-- The index rewrite loop of `PDS_expand_size`: entry `i` of the new row
index becomes the old entry plus `shift`. -/
def expandWriteIndex (b old : Nat → Cell) (ncols shift : Nat) : Nat → Nat → Cell
  | 0 => b
  | i + 1 =>
    writeIdx (expandWriteIndex b old ncols shift i) (rowIndexAddr ncols i)
      (readCLUint old (rowIndexAddr ncols i) + shift)

/-- PDS_expand_size (src/datastore.c:335-412): round the requested size down
to the alignment boundary and return the old store untouched when that is not
larger than the current buffer; for Row/Hash, allocate, copy the header, shift
the back payload toward the new end and rewrite every index entry by the same
shift, erroring when the minimum length estimate already reaches the new size;
for Slot, error when the variable-length area is in use, else copy the fixed
value/null-flag arrays. -/
def PDS_expand_size (s : KDS) (kds_length_new : Nat) : ExpandResult :=
  let newLen := stromAlignDown kds_length_new
  if newLen ≤ s.length then ExpandResult.ok s
  else if s.format = KdsFormat.row ∨ s.format = KdsFormat.hash then
    let shift := stromAlignDown (newLen - s.length)
    let est := if s.format = KdsFormat.hash
               then hashLengthEst s.ncols s.nitems s.usage
               else rowLengthEst s.ncols s.nitems s.usage
    if newLen ≤ est then ExpandResult.err
    else
      ExpandResult.ok
        { s with
          length := newLen
          buf := expandWriteIndex
                   (expandPayloadCopy s.buf s.ncols s.length s.usage shift)
                   s.buf s.ncols shift s.nitems }
  else if s.format = KdsFormat.slot then
    if 0 < s.usage then ExpandResult.err
    else
      ExpandResult.ok
        { s with
          length := newLen
          buf := fun a =>
            if a < headLen s.ncols + slotRowSz s.ncols * s.nitems then s.buf a
            else Cell.uninit }
  else ExpandResult.err

/-- Result of `PDS_shrink_size`: `ok` carries the (possibly untouched) store,
`err` is an `elog(ERROR)` exit. -/
inductive ShrinkResult where
  | ok (s : KDS)
  | err

/-- The shrink body of one loop iteration of `PDS_shrink_size`: decrement
row-index entry `i` by `shift` and, when a bucket table exists, re-chain the
moved `kern_hashitem` at the head of its bucket. -/
def shrinkAdjustStep (ncols nslots shift i : Nat)
    (st : (Nat → Cell) × (Nat → Nat)) : (Nat → Cell) × (Nat → Nat) :=
  let ri := readCLUint st.1 (rowIndexAddr ncols i) - shift
  let b1 := writeIdx st.1 (rowIndexAddr ncols i) ri
  if nslots = 0 then (b1, st.2)
  else
    let base := ri - hashitemTOff
    let h :=
      match b1 base with
      | Cell.hashv v => v
      | _ => 0
    let j := h % nslots
    (fun a => if a = base + 4 then Cell.nextv (st.2 j) else b1 a,
     fun k => if k = j then base else st.2 k)

/-- The per-record adjustment loop of `PDS_shrink_size`, iterating the step
over records `0 .. n-1` in order. -/
def shrinkAdjustLoop (ncols nslots shift : Nat) :
    Nat → (Nat → Cell) × (Nat → Nat) → (Nat → Cell) × (Nat → Nat)
  | 0, st => st
  | i + 1, st =>
    shrinkAdjustStep ncols nslots shift i (shrinkAdjustLoop ncols nslots shift i st)

/-- The minimum-length estimate `PDS_shrink_size` subtracts from the current
length: the Hash or Row length formula depending on the format. -/
def shrinkEst (s : KDS) : Nat :=
  if s.format = KdsFormat.hash then hashLengthEst s.ncols s.nitems s.usage
  else rowLengthEst s.ncols s.nitems s.usage

/-- The aligned reclaimable slack of a Row/Hash chunk. -/
def shrinkShift (s : KDS) : Nat := stromAlignDown (s.length - shrinkEst s)

/-- The byte offset where the movable payload region starts for shrink. -/
def shrinkFront (s : KDS) : Nat :=
  if s.format = KdsFormat.hash then hashFrontLen s.ncols s.nitems
  else rowFrontLen s.ncols s.nitems

/-- PDS_shrink_size (src/datastore.c:414-491): for Row/Hash, compute the
aligned reclaimable slack over the minimum length estimate; when it is below
one storage page or below `sizeof(Datum)` per record the chunk is left alone;
otherwise the payload is moved toward the front by the slack, every index
entry is decremented by it, and an existing bucket table is cleared and
rebuilt; Slot shrinks by dropping room beyond the fixed arrays unless the
variable-length area is in use; other formats are an error. -/
def PDS_shrink_size (s : KDS) : ShrinkResult :=
  if s.format = KdsFormat.row ∨ s.format = KdsFormat.hash then
    if shrinkShift s < BLCKSZ ∨ shrinkShift s < sizeofDatum * s.nitems then
      ShrinkResult.ok s
    else
      let b0 : Nat → Cell := fun a =>
        if shrinkFront s ≤ a ∧ a < shrinkFront s + (s.length - shrinkShift s) then
          s.buf (a + shrinkShift s)
        else s.buf a
      let hs0 : Nat → Nat := if 0 < s.nslots then fun _ => 0 else s.hashSlot
      let st := shrinkAdjustLoop s.ncols s.nslots (shrinkShift s) s.nitems (b0, hs0)
      ShrinkResult.ok
        { s with length := s.length - shrinkShift s, buf := st.1, hashSlot := st.2 }
  else if s.format = KdsFormat.slot then
    if 0 < s.usage then ShrinkResult.err
    else ShrinkResult.ok
      { s with length := headLen s.ncols + slotRowSz s.ncols * s.nitems }
  else ShrinkResult.err

/-- The store carried by an expansion result, with a default for the error
case. -/
def ExpandResult.getD (r : ExpandResult) (d : KDS) : KDS :=
  match r with
  | ExpandResult.ok s => s
  | ExpandResult.err => d

/-- The store carried by a shrink result, with a default for the error case. -/
def ShrinkResult.getD (r : ShrinkResult) (d : KDS) : KDS :=
  match r with
  | ShrinkResult.ok s => s
  | ShrinkResult.err => d

/-- The bucket table obtained by head-inserting items `0 .. m-1` in order
into an initially empty table: bucket `j` holds the base offset of the last
item whose hash modulo `nslots` is `j`, or 0 when the bucket is empty.  The
value before item `i` is inserted is also the chain pointer item `i`
receives. -/
def rebuiltHead (nslots : Nat) (base hv : Nat → Nat) : Nat → Nat → Nat
  | 0, _ => 0
  | i + 1, j =>
    if hv i % nslots = j then base i else rebuiltHead nslots base hv i j

/-- One line pointer of a storage page: either not a normal item, or a tuple
together with the verdict of the external visibility predicate. -/
inductive PageItem where
  | notNormal
  | tupleItem (visible : Bool) (t : Tuple)
  deriving DecidableEq, Repr

/-- The tuples of a page that pass the visibility check, in page order. -/
def visibleTuples (page : List PageItem) : List Tuple :=
  page.filterMap fun it =>
    match it with
    | PageItem.tupleItem true t => some t
    | _ => none

/-- The copy loop of `PDS_insert_block`: each visible normal item grows the
back payload by its aligned size, is written there as a `kern_tupitem`, and
gets the next row-index entry after the pre-existing `nitems0` ones. -/
def insertBlockLoop (len ncols nitems0 : Nat) (items : List PageItem)
    (ntup usage : Nat) (b : Nat → Cell) : Nat × Nat × (Nat → Cell) :=
  match items with
  | [] => (ntup, usage, b)
  | PageItem.notNormal :: rest => insertBlockLoop len ncols nitems0 rest ntup usage b
  | PageItem.tupleItem false _ :: rest =>
    insertBlockLoop len ncols nitems0 rest ntup usage b
  | PageItem.tupleItem true t :: rest =>
    let usage' := usage + requiredOf t
    let pos := len - usage'
    insertBlockLoop len ncols nitems0 rest (ntup + 1) usage'
      (writeIdx (writeTupitem b pos t) (rowIndexAddr ncols (nitems0 + ntup)) pos)

/-- PDS_insert_block (src/datastore.c:826-935): before touching anything,
check the worst case — every line of the page visible, with the conservative
Hash-format length estimate for `tupHdrSz` header bytes per line plus one full
page of payload; return the `-1` full sentinel when it does not fit, otherwise
copy every visible record and return their count. -/
def PDS_insert_block (s : KDS) (page : List PageItem) : Int × KDS :=
  let lines := page.length
  let maxConsume := hashLengthEst s.ncols (s.nitems + lines)
                      (tupHdrSz * lines + BLCKSZ + s.usage)
  if s.length < maxConsume then (-1, s)
  else
    let r := insertBlockLoop s.length s.ncols s.nitems page 0 s.usage s.buf
    ((r.1 : Int), { s with usage := r.2.1, nitems := s.nitems + r.1, buf := r.2.2 })

/-- The reference-counting view of a `pgstrom_data_store`: the buffer identity
(so that returning the same reference is expressible), the reference count,
and how many times `dmaBufferFree` has run on the buffer. -/
structure PDSRef where
  id : Nat
  refcnt : Nat
  freed : Nat
  deriving DecidableEq, Repr

/-- The `pds->refcnt = 1` initialization every `PDS_create_*` performs
(src/datastore.c:501, 529, 549, 571). -/
def newPDSRef (i : Nat) : PDSRef := { id := i, refcnt := 1, freed := 0 }

/-- PDS_retain (src/datastore.c:242-250): increment the reference count and
return the same reference; the `Assert(pds->refcnt > 0)` precondition appears
as a hypothesis of the theorems. -/
def PDS_retain (p : PDSRef) : PDSRef := { p with refcnt := p.refcnt + 1 }

/-- PDS_release (src/datastore.c:252-258): decrement the reference count and
free the underlying buffer exactly when it reaches zero. -/
def PDS_release (p : PDSRef) : PDSRef :=
  let r := p.refcnt - 1
  if r = 0 then { p with refcnt := 0, freed := p.freed + 1 }
  else { p with refcnt := r }

/-- Iterated `PDS_retain`. -/
def retainN : Nat → PDSRef → PDSRef
  | 0, p => p
  | k + 1, p => PDS_retain (retainN k p)

/-- Iterated `PDS_release`. -/
def releaseN : Nat → PDSRef → PDSRef
  | 0, p => p
  | k + 1, p => PDS_release (releaseN k p)

/-- CUDA success status. -/
def CUDA_SUCCESS : Nat := 0

/-- CUDA status telling that the context is already destroyed. -/
def CUDA_ERROR_INVALID_CONTEXT : Nat := 201

/-- Device-side success code. -/
def StromError_Success : Nat := 0

/-- Device-side recoverable code: the predicate needs a host recheck. -/
def StromError_CpuReCheck : Nat := 1

/-- Device-side recoverable code: the destination chunk ran out of space. -/
def StromError_DataStoreNoSpace : Nat := 2

/-- Marker recorded as the erroring kernel when the CUDA runtime itself
reports a failure. -/
def StromKernel_CudaRuntime : Nat := 99

/-- The `kern_errorbuf` triple recorded on a task. -/
structure KernErrorStatus where
  errcode : Nat
  kernel : Nat
  lineno : Nat
  deriving DecidableEq, Repr

/-- The completion-relevant state of a `pgstrom_gpuscan` task: its recorded
error, the CPU-fallback mark, and whether it is linked on the running list. -/
structure GpuScanTask where
  kerror : KernErrorStatus
  cpu_fallback : Bool
  onRunningChain : Bool
  deriving DecidableEq, Repr

/-- The shared task-queue state guarded by the GpuTaskState spinlock. -/
structure TaskQueues where
  num_running_tasks : Nat
  num_completed_tasks : Nat
  completed_tasks : List GpuScanTask
  deriving DecidableEq, Repr

/-- pgstrom_respond_gpuscan (src/gpuscan.c:2310-2386): bail out untouched when
the CUDA context is gone or the transaction is no longer alive; on CUDA
success adopt the device error and, when CPU fallback is enabled and the code
is one of the two recoverable conditions, clear it and mark the task for
fallback; on any other CUDA status record that status verbatim; finally unlink
from the running list and push onto the completed list — head for a task left
with a non-success code, tail for a successful one. -/
def pgstrom_respond_gpuscan (status : Nat) (txAlive fallbackEnabled : Bool)
    (kernKerror : KernErrorStatus) (task : GpuScanTask) (gts : TaskQueues) :
    GpuScanTask × TaskQueues :=
  if status = CUDA_ERROR_INVALID_CONTEXT ∨ txAlive = false then (task, gts)
  else
    let task1 :=
      if status = CUDA_SUCCESS then
        let t := { task with kerror := kernKerror }
        if fallbackEnabled = true ∧
           (kernKerror.errcode = StromError_CpuReCheck ∨
            kernKerror.errcode = StromError_DataStoreNoSpace) then
          { t with
            kerror := { t.kerror with errcode := StromError_Success }
            cpu_fallback := true }
        else t
      else
        { task with
          kerror :=
            { errcode := status, kernel := StromKernel_CudaRuntime, lineno := 0 } }
    let gts1 :=
      { gts with
        num_running_tasks :=
          if task1.onRunningChain then gts.num_running_tasks - 1
          else gts.num_running_tasks }
    let task2 := { task1 with onRunningChain := false }
    let completed := if task2.kerror.errcode = StromError_Success
                     then gts1.completed_tasks ++ [task2]
                     else task2 :: gts1.completed_tasks
    (task2,
     { gts1 with
       completed_tasks := completed
       num_completed_tasks := gts1.num_completed_tasks + 1 })

/-- Run a sequence of `PDS_insert_tuple` calls, succeeding only when every
single call reports success. -/
def insertAllRow (s : KDS) : List Tuple → Option KDS
  | [] => some s
  | t :: rest =>
    match PDS_insert_tuple s t with
    | InsertResult.ok s' => insertAllRow s' rest
    | _ => none

/-- Total aligned payload bytes of a list of inserted tuples. -/
def usageOf (ts : List Tuple) : Nat := (ts.map requiredOf).sum

/-- Byte offset of the `i`-th inserted record: records are stacked downward
from the buffer end, each starting where the payload consumed so far ends. -/
def posOf (len : Nat) (ts : List Tuple) (i : Nat) : Nat :=
  len - usageOf (ts.take (i + 1))

/-- The invariant a Row-format chunk satisfies after the records `ts` have
been appended in order: counters match, every row-index entry holds the
record's offset, and the record cells hold the inserted bytes. -/
structure RowInv (s : KDS) (ts : List Tuple) : Prop where
  fmt : s.format = KdsFormat.row
  count : s.nitems = ts.length
  us : s.usage = usageOf ts
  bound : rowLengthEst s.ncols s.nitems s.usage ≤ s.length
  idxCell : ∀ i, i < ts.length →
    s.buf (rowIndexAddr s.ncols i) = Cell.idx (posOf s.length ts i)
  lenCell : ∀ i, (h : i < ts.length) →
    s.buf (posOf s.length ts i) = Cell.lenv (ts.get ⟨i, h⟩).t_len
  selfCell : ∀ i, (h : i < ts.length) →
    s.buf (posOf s.length ts i + 4) = Cell.selfv (ts.get ⟨i, h⟩).t_self
  dataCell : ∀ i, (h : i < ts.length) → ∀ k, k < (ts.get ⟨i, h⟩).t_len →
    s.buf (posOf s.length ts i + tupHdrSz + k) =
      Cell.bytev ((ts.get ⟨i, h⟩).data.getD k 0)

/-- Worst-case bytes a line pointer occupies on its source page: the 4-byte
ItemId plus the aligned tuple data (zero for a non-normal pointer). -/
def pageItemCost : PageItem → Nat
  | PageItem.notNormal => 0
  | PageItem.tupleItem _ t => 4 + longAlign t.t_len

/-- Bytes the line pointers of a page occupy beyond the 24-byte page header. -/
def pageCost (page : List PageItem) : Nat := (page.map pageItemCost).sum

/-- A 54-byte record whose aligned Row insertion size is exactly 64 bytes. -/
def c2rec : Tuple := { t_self := 0, data := List.replicate 54 7 }

/-- Two small records used to exercise the insertion round-trip. -/
def c1tupA : Tuple := { t_self := 11, data := [1, 2, 3] }

/-- Second record of the round-trip example. -/
def c1tupB : Tuple := { t_self := 22, data := List.replicate 20 5 }

/-- The chunk obtained by inserting the two example records into a fresh
288-byte Row chunk. -/
def c1res : KDS :=
  (insertAllRow (PDS_create_row 1 288) [c1tupA, c1tupB]).getD (PDS_create_row 1 288)

/-- A 288-byte Row chunk holding one 64-byte record, for the expansion
example. -/
def c4base : KDS :=
  (insertAllRow (PDS_create_row 1 288) [c2rec]).getD (PDS_create_row 1 288)

/-- A Slot-format chunk whose variable-length area is in use. -/
def c5slotUsed : KDS :=
  { length := 160, usage := 16, ncols := 1, nitems := 2, nrooms := 2,
    nslots := 0, format := KdsFormat.slot, buf := fun _ => Cell.uninit,
    hashSlot := fun _ => 0 }

/-- A Slot-format chunk with an empty variable-length area. -/
def c5slotEmpty : KDS :=
  { length := 160, usage := 0, ncols := 1, nitems := 2, nrooms := 2,
    nslots := 0, format := KdsFormat.slot, buf := fun _ => Cell.uninit,
    hashSlot := fun _ => 0 }

/-- A Row chunk whose aligned reclaimable slack is 8192: at least one page and
at least the 4-byte-per-record index footprint, yet below the 8-byte-per-record
threshold the code actually uses. -/
def c6noop : KDS :=
  { length := 38272, usage := 24000, ncols := 1, nitems := 1500,
    nrooms := 2147483647, nslots := 0, format := KdsFormat.row,
    buf := fun _ => Cell.uninit, hashSlot := fun _ => 0 }

/-- A large Row chunk holding one record, with enough slack to compact. -/
def c6compact : KDS :=
  (insertAllRow (PDS_create_row 1 8640) [c2rec]).getD (PDS_create_row 1 8640)

/-- A well-formed 8400-byte Hash chunk with a built 3-bucket table and two
32-byte items whose hashes (5 and 8) fall into the same bucket: item bases at
8336 and 8368, row-index entries at the embedded tupitems 8348 and 8380. -/
def c6hash : KDS :=
  { length := 8400
    usage := 64
    ncols := 1
    nitems := 2
    nrooms := 2147483647
    nslots := 3
    format := KdsFormat.hash
    buf := fun a =>
      if a = 80 then Cell.idx 8348
      else if a = 84 then Cell.idx 8380
      else if a = 8336 then Cell.hashv 5
      else if a = 8368 then Cell.hashv 8
      else Cell.pad
    hashSlot := fun _ => 0 }

/-- The hash values of the two items of the example Hash chunk. -/
def c6hashHv : Nat → Nat := fun i => if i = 0 then 5 else 8

/-- A Hash-format chunk claiming one stored record. -/
def c7hash : KDS :=
  { length := 4096, usage := 96, ncols := 1, nitems := 1, nrooms := 2147483647,
    nslots := 0, format := KdsFormat.hash, buf := fun _ => Cell.uninit,
    hashSlot := fun _ => 0 }

/-- A Row chunk too small for even one 64-byte record, so insertion rejects. -/
def c10row : KDS := PDS_create_row 1 96

/-- A Hash chunk too small for even one record, so hash insertion rejects. -/
def c10hash : KDS :=
  { length := 96, usage := 0, ncols := 1, nitems := 0, nrooms := 2147483647,
    nslots := 0, format := KdsFormat.hash, buf := fun _ => Cell.uninit,
    hashSlot := fun _ => 0 }

/-- A page with one dead line pointer, two visible tuples and one invisible
tuple. -/
def c8page : List PageItem :=
  [PageItem.notNormal, PageItem.tupleItem true c1tupA,
   PageItem.tupleItem false c2rec, PageItem.tupleItem true c1tupB]

/-- An empty Row chunk large enough to absorb the whole example page. -/
def c8big : KDS := PDS_create_row 1 12800

/-- An empty Row chunk far too small for the worst case of any page. -/
def c8small : KDS := PDS_create_row 1 160

/-- A task state before its completion callback runs. -/
def c9task : GpuScanTask :=
  { kerror := { errcode := 0, kernel := 0, lineno := 0 }
    cpu_fallback := false
    onRunningChain := true }

/-- A queue state with one running and no completed task. -/
def c9gts : TaskQueues :=
  { num_running_tasks := 1, num_completed_tasks := 0, completed_tasks := [] }

/-- A device error report asking for a CPU recheck. -/
def c9recheck : KernErrorStatus :=
  { errcode := StromError_CpuReCheck, kernel := 3, lineno := 42 }

/-! Helper lemmas about the alignment arithmetic. -/

theorem stromAlign_ge (n : Nat) : n ≤ stromAlign n := by
  unfold stromAlign alignUp
  have h := Nat.div_add_mod (n + 15) 16
  have h2 : (n + 15) % 16 < 16 := Nat.mod_lt _ (by omega)
  omega

theorem stromAlign_le (n : Nat) : stromAlign n ≤ n + 15 := by
  unfold stromAlign alignUp
  have h := Nat.div_add_mod (n + 15) 16
  have h2 : (n + 15) % 16 < 16 := Nat.mod_lt _ (by omega)
  omega

theorem stromAlign_mono (m n : Nat) (h : m ≤ n) : stromAlign m ≤ stromAlign n := by
  unfold stromAlign alignUp
  have : (m + 15) / 16 ≤ (n + 15) / 16 := Nat.div_le_div_right (by omega)
  omega

theorem stromAlignDown_le (n : Nat) : stromAlignDown n ≤ n := by
  unfold stromAlignDown alignDown
  have h := Nat.div_add_mod n 16
  omega

theorem stromAlignDown_eq_self (n : Nat) (h : 16 ∣ n) : stromAlignDown n = n := by
  unfold stromAlignDown alignDown
  obtain ⟨c, rfl⟩ := h
  have h2 : 16 * c % 16 = 0 := Nat.mul_mod_right 16 c
  have h3 := Nat.div_add_mod (16 * c) 16
  omega

theorem longAlign_ge (n : Nat) : n ≤ longAlign n := by
  unfold longAlign alignUp
  have h := Nat.div_add_mod (n + 7) 8
  have h2 : (n + 7) % 8 < 8 := Nat.mod_lt _ (by omega)
  omega

theorem longAlign_le (n : Nat) : longAlign n ≤ n + 7 := by
  unfold longAlign alignUp
  have h := Nat.div_add_mod (n + 7) 8
  have h2 : (n + 7) % 8 < 8 := Nat.mod_lt _ (by omega)
  omega

theorem longAlign_mono (m n : Nat) (h : m ≤ n) : longAlign m ≤ longAlign n := by
  unfold longAlign alignUp
  have : (m + 7) / 8 ≤ (n + 7) / 8 := Nat.div_le_div_right (by omega)
  omega

theorem longAlign_eq_self (n : Nat) (h : 8 ∣ n) : longAlign n = n := by
  unfold longAlign alignUp
  obtain ⟨c, rfl⟩ := h
  have h2 : 8 * c % 8 = 0 := Nat.mul_mod_right 8 c
  have h3 := Nat.div_add_mod (8 * c + 7) 8
  have h4 : (8 * c + 7) % 8 = 7 := by omega
  omega

theorem requiredOf_le (t : Tuple) : requiredOf t ≤ 16 + longAlign t.t_len := by
  have h1 : requiredOf t ≤ longAlign (16 + longAlign t.t_len) := by
    unfold requiredOf
    exact longAlign_mono _ _ (by have := longAlign_ge t.t_len; unfold tupHdrSz; omega)
  have h2 : longAlign (16 + longAlign t.t_len) = 16 + longAlign t.t_len := by
    apply longAlign_eq_self
    have : 8 ∣ longAlign t.t_len := ⟨(t.t_len + 7) / 8, rfl⟩
    omega
  omega

theorem requiredOf_ge (t : Tuple) : tupHdrSz + t.t_len ≤ requiredOf t :=
  longAlign_ge _

/-! Helper lemmas about the cell-level write and read primitives. -/

theorem writeIdx_frame (b : Nat → Cell) (base v a : Nat)
    (h : a < base ∨ base + sizeofCLUint ≤ a) : writeIdx b base v a = b a := by
  unfold writeIdx
  unfold sizeofCLUint at h ⊢
  rw [if_neg (by omega), if_neg (by omega)]

theorem writeIdx_at (b : Nat → Cell) (base v : Nat) :
    writeIdx b base v base = Cell.idx v := by
  unfold writeIdx
  rw [if_pos rfl]

theorem writeTupitem_frame (b : Nat → Cell) (pos : Nat) (t : Tuple) (a : Nat)
    (h : a < pos ∨ pos + tupHdrSz + t.t_len ≤ a) : writeTupitem b pos t a = b a := by
  unfold writeTupitem
  unfold tupHdrSz at h ⊢
  rw [if_neg (by omega), if_neg (by omega), if_neg (by omega), if_neg (by omega)]

theorem writeTupitem_at_len (b : Nat → Cell) (pos : Nat) (t : Tuple) :
    writeTupitem b pos t pos = Cell.lenv t.t_len := by
  unfold writeTupitem
  rw [if_pos rfl]

theorem writeTupitem_at_self (b : Nat → Cell) (pos : Nat) (t : Tuple) :
    writeTupitem b pos t (pos + 4) = Cell.selfv t.t_self := by
  unfold writeTupitem
  rw [if_neg (by omega), if_pos rfl]

theorem writeTupitem_at_data (b : Nat → Cell) (pos : Nat) (t : Tuple) (k : Nat)
    (hk : k < t.t_len) :
    writeTupitem b pos t (pos + tupHdrSz + k) = Cell.bytev (t.data.getD k 0) := by
  unfold writeTupitem
  unfold tupHdrSz
  rw [if_neg (by omega), if_neg (by omega), if_neg (by omega), if_pos (by omega)]
  have e : pos + 10 + k - (pos + 10) = k := by omega
  rw [e]

theorem range_map_getD (l : List Nat) :
    ((List.range l.length).map fun k => l.getD k 0) = l := by
  apply List.ext_getElem
  · simp
  · intro i h1 h2
    simp only [List.getElem_map, List.getElem_range]
    exact List.getD_eq_getElem l 0 h2

theorem readTupitem_mk (b : Nat → Cell) (pos : Nat) (t : Tuple)
    (hl : b pos = Cell.lenv t.t_len)
    (hs : b (pos + 4) = Cell.selfv t.t_self)
    (hd : ∀ k, k < t.t_len →
      b (pos + tupHdrSz + k) = Cell.bytev (t.data.getD k 0)) :
    readTupitem b pos = t := by
  unfold readTupitem
  rw [hl, hs]
  cases t with
  | mk tself tdata =>
    simp only [Tuple.t_len] at hd ⊢
    have hmap : ((List.range tdata.length).map fun k =>
        match b (pos + tupHdrSz + k) with
        | Cell.bytev v => v
        | _ => 0) = (List.range tdata.length).map fun k => tdata.getD k 0 := by
      apply List.map_congr_left
      intro k hk
      rw [hd k (List.mem_range.mp hk)]
    simp only [hmap, range_map_getD]

/-! Arithmetic facts about the list of inserted records. -/

theorem usageOf_append (ts : List Tuple) (t : Tuple) :
    usageOf (ts ++ [t]) = usageOf ts + requiredOf t := by
  simp [usageOf]

theorem usageOf_take_le (ts : List Tuple) (m : Nat) :
    usageOf (ts.take m) ≤ usageOf ts := by
  have h : usageOf (ts.take m) + usageOf (ts.drop m) = usageOf ts := by
    unfold usageOf
    rw [← List.sum_append, ← List.map_append, List.take_append_drop]
  omega

theorem posOf_append (ts : List Tuple) (t : Tuple) (len i : Nat)
    (h : i < ts.length) :
    posOf len (ts ++ [t]) i = posOf len ts i := by
  unfold posOf
  rw [List.take_append_of_le_length (by omega)]

theorem posOf_last (ts : List Tuple) (t : Tuple) (len : Nat) :
    posOf len (ts ++ [t]) ts.length = len - (usageOf ts + requiredOf t) := by
  unfold posOf
  rw [List.take_of_length_le (by simp), usageOf_append]

theorem posOf_ge (ts : List Tuple) (len i : Nat) :
    len - usageOf ts ≤ posOf len ts i := by
  unfold posOf
  have := usageOf_take_le ts (i + 1)
  omega

/-- C10: whenever `PDS_insert_tuple` or `PDS_insert_hashitem` returns the
non-fatal false, the chunk handed back is exactly the input chunk — record
count, used bytes, the index array and every stored record keep their prior
values, because every capacity check happens before any mutation. -/
theorem C10_insert_reject_unchanged (s : KDS) (t : Tuple) (hv : Nat) :
    ((PDS_insert_tuple s t).isFull = true →
      PDS_insert_tuple s t = InsertResult.full s) ∧
    ((PDS_insert_hashitem s t hv).isFull = true →
      PDS_insert_hashitem s t hv = InsertResult.full s) := by
  constructor
  · intro h
    simp only [PDS_insert_tuple] at h ⊢
    split_ifs at h ⊢ <;> simp_all [InsertResult.isFull]
  · intro h
    simp only [PDS_insert_hashitem] at h ⊢
    split_ifs at h ⊢ <;> simp_all [InsertResult.isFull]

/-- C10 witness: a 96-byte Row chunk rejects a 64-byte record and is handed
back unchanged. -/
theorem C10_witness :
    PDS_insert_tuple c10row c2rec = InsertResult.full c10row :=
  (C10_insert_reject_unchanged c10row c2rec 0).1 (by decide)

theorem retainN_spec (K : Nat) (p : PDSRef) :
    retainN K p = { p with refcnt := p.refcnt + K } := by
  induction K with
  | zero => rfl
  | succ k ih =>
    show PDS_retain (retainN k p) = _
    rw [ih]
    unfold PDS_retain
    rw [Nat.add_assoc]

theorem releaseN_spec (J : Nat) (p : PDSRef) (h : J < p.refcnt) :
    releaseN J p = { p with refcnt := p.refcnt - J } := by
  induction J with
  | zero => rfl
  | succ j ih =>
    show PDS_release (releaseN j p) = _
    rw [ih (by omega)]
    simp only [PDS_release]
    rw [if_neg (by omega)]
    have e : p.refcnt - j - 1 = p.refcnt - (j + 1) := by omega
    rw [e]

/-- C3: starting from a store created with reference count 1, the count after
K retains is 1 + K with the same buffer identity; as long as at most K
releases follow, nothing is freed and the count stays positive (so every call
meets the positive-refcount precondition); the (K+1)-th release is the one
that brings the count to zero and frees the buffer exactly once. -/
theorem C3_retain_release_balance (K i : Nat) :
    ((retainN K (newPDSRef i)).id = i ∧ (retainN K (newPDSRef i)).refcnt = 1 + K) ∧
    (∀ m, m ≤ K → 0 < (retainN m (newPDSRef i)).refcnt) ∧
    (∀ J, J ≤ K →
      (releaseN J (retainN K (newPDSRef i))).freed = 0 ∧
      0 < (releaseN J (retainN K (newPDSRef i))).refcnt) ∧
    (releaseN (K + 1) (retainN K (newPDSRef i))).freed = 1 ∧
    (releaseN (K + 1) (retainN K (newPDSRef i))).refcnt = 0 := by
  have hr : retainN K (newPDSRef i) = { id := i, refcnt := 1 + K, freed := 0 } := by
    rw [retainN_spec]
    show ({ id := i, refcnt := 1 + K, freed := 0 } : PDSRef) = _
    rfl
  have hK : releaseN K (retainN K (newPDSRef i)) =
      { id := i, refcnt := 1, freed := 0 } := by
    rw [hr, releaseN_spec _ _ (by simp)]
    have e : 1 + K - K = 1 := by omega
    simp [e]
  refine ⟨⟨by rw [hr], by rw [hr]⟩, ?_, ?_, ?_, ?_⟩
  · intro m _
    rw [retainN_spec]
    simp [newPDSRef]
  · intro J hJ
    rw [hr, releaseN_spec _ _ (by simp; omega)]
    refine ⟨rfl, by simp; omega⟩
  · show (PDS_release (releaseN K (retainN K (newPDSRef i)))).freed = 1
    rw [hK]
    rfl
  · show (PDS_release (releaseN K (retainN K (newPDSRef i)))).refcnt = 0
    rw [hK]
    rfl

/-- C3 witness: two retains, then releases — after one release nothing is
freed; the third release frees exactly once. -/
theorem C3_witness :
    (releaseN 1 (retainN 2 (newPDSRef 5))).freed = 0 ∧
    0 < (releaseN 1 (retainN 2 (newPDSRef 5))).refcnt ∧
    (releaseN 3 (retainN 2 (newPDSRef 5))).freed = 1 := by
  have h := C3_retain_release_balance 2 5
  exact ⟨(h.2.2.1 1 (by omega)).1, (h.2.2.1 1 (by omega)).2, h.2.2.2.1⟩

/-- C7 counterexample: a Hash-format chunk with a stored record does not give
a record view at a valid index — the fetch routine only handles Row and Slot
formats and raises the unexpected-format error instead. -/
theorem C7_counterexample :
    0 < c7hash.nitems ∧ kern_fetch_data_store c7hash 0 = FetchResult.fatal := by
  exact ⟨by decide, rfl⟩

/-- C7 amended: fetch signals out-of-range for every index at or beyond the
record count without touching the output; below the count it returns a view
over the stored record for Row format and the decoded fixed arrays for Slot
format, while Hash and Block formats raise the fatal unexpected-format
error. -/
theorem C7_fetch_amended (s : KDS) (i : Nat) :
    (s.nitems ≤ i → pgstrom_fetch_data_store s i = FetchResult.outOfRange) ∧
    (i < s.nitems → s.format = KdsFormat.row →
      pgstrom_fetch_data_store s i = FetchResult.view
        (readTupitem s.buf (readCLUint s.buf (rowIndexAddr s.ncols i)))) ∧
    (i < s.nitems → s.format = KdsFormat.slot →
      pgstrom_fetch_data_store s i =
        FetchResult.slotView (readSlotRow s i).1 (readSlotRow s i).2) ∧
    (i < s.nitems → (s.format = KdsFormat.hash ∨ s.format = KdsFormat.block) →
      pgstrom_fetch_data_store s i = FetchResult.fatal) := by
  unfold pgstrom_fetch_data_store kern_fetch_data_store
  refine ⟨?_, ?_, ?_, ?_⟩
  · intro h1
    rw [if_pos h1]
  · intro h1 h2
    rw [if_neg (by omega), if_pos h2]
  · intro h1 h2
    rw [if_neg (by omega), if_neg (by simp [h2]), if_pos h2]
  · intro h1 h2
    rcases h2 with h2 | h2 <;>
      rw [if_neg (by omega), if_neg (by simp [h2]), if_neg (by simp [h2])]

/-- C7 witness: on the two-record example chunk, index 5 is out of range. -/
theorem C7_witness :
    pgstrom_fetch_data_store c1res 5 = FetchResult.outOfRange :=
  (C7_fetch_amended c1res 5).1 (by decide)

/-- C9 counterexample: with CPU fallback disabled, a successful device run
that reported the recoverable recheck condition is not cleared and not marked
for fallback — the error code stays on the task, contradicting the claim that
every recoverable condition is converted to a fallback. -/
theorem C9_counterexample :
    (pgstrom_respond_gpuscan CUDA_SUCCESS true false c9recheck c9task c9gts).1.kerror.errcode
      = StromError_CpuReCheck ∧
    (pgstrom_respond_gpuscan CUDA_SUCCESS true false c9recheck c9task c9gts).1.cpu_fallback
      = false ∧
    ¬ ((pgstrom_respond_gpuscan CUDA_SUCCESS true false c9recheck c9task c9gts).1.kerror.errcode
        = StromError_Success ∧
       (pgstrom_respond_gpuscan CUDA_SUCCESS true false c9recheck c9task c9gts).1.cpu_fallback
        = true) := by
  decide

/-- C9 amended: in a live transaction with a live context, the callback —
provided CPU fallback is enabled — clears a recoverable device condition,
marks the task for fallback and pushes it onto the back of the completed
queue; a CUDA failure status is recorded verbatim with the runtime marker and
pushed onto the front; a device-reported error that is not recoverable (or has
fallback disabled) stays on the task verbatim and is pushed onto the front;
and a clean success is pushed onto the back. -/
theorem C9_respond_amended (status : Nat) (fbe : Bool) (kk : KernErrorStatus)
    (task : GpuScanTask) (gts : TaskQueues)
    (hctx : status ≠ CUDA_ERROR_INVALID_CONTEXT) :
    ((status = CUDA_SUCCESS ∧ fbe = true ∧
      (kk.errcode = StromError_CpuReCheck ∨
       kk.errcode = StromError_DataStoreNoSpace)) →
      (pgstrom_respond_gpuscan status true fbe kk task gts).1.kerror.errcode
          = StromError_Success ∧
      (pgstrom_respond_gpuscan status true fbe kk task gts).1.cpu_fallback = true ∧
      (pgstrom_respond_gpuscan status true fbe kk task gts).2.completed_tasks =
        gts.completed_tasks ++ [(pgstrom_respond_gpuscan status true fbe kk task gts).1]) ∧
    (status ≠ CUDA_SUCCESS →
      (pgstrom_respond_gpuscan status true fbe kk task gts).1.kerror.errcode = status ∧
      (pgstrom_respond_gpuscan status true fbe kk task gts).1.kerror.kernel
          = StromKernel_CudaRuntime ∧
      (pgstrom_respond_gpuscan status true fbe kk task gts).1.cpu_fallback
          = task.cpu_fallback ∧
      (pgstrom_respond_gpuscan status true fbe kk task gts).2.completed_tasks =
        (pgstrom_respond_gpuscan status true fbe kk task gts).1 :: gts.completed_tasks) ∧
    (status = CUDA_SUCCESS → kk.errcode ≠ StromError_Success →
      (fbe = false ∨ (kk.errcode ≠ StromError_CpuReCheck ∧
                      kk.errcode ≠ StromError_DataStoreNoSpace)) →
      (pgstrom_respond_gpuscan status true fbe kk task gts).1.kerror = kk ∧
      (pgstrom_respond_gpuscan status true fbe kk task gts).2.completed_tasks =
        (pgstrom_respond_gpuscan status true fbe kk task gts).1 :: gts.completed_tasks) ∧
    (status = CUDA_SUCCESS → kk.errcode = StromError_Success →
      (pgstrom_respond_gpuscan status true fbe kk task gts).1.kerror = kk ∧
      (pgstrom_respond_gpuscan status true fbe kk task gts).2.completed_tasks =
        gts.completed_tasks ++ [(pgstrom_respond_gpuscan status true fbe kk task gts).1]) := by
  have hctx' : ¬ (status = CUDA_ERROR_INVALID_CONTEXT ∨ (true : Bool) = false) := by
    simp [hctx]
  refine ⟨?_, ?_, ?_, ?_⟩
  · rintro ⟨h1, h2, h3⟩
    subst h1 h2
    rcases h3 with h3 | h3 <;>
      simp [pgstrom_respond_gpuscan, hctx', hctx, h3, StromError_Success,
        StromError_CpuReCheck, StromError_DataStoreNoSpace]
  · intro h1
    have hne : status ≠ StromError_Success := h1
    simp [pgstrom_respond_gpuscan, hctx', hctx, h1, hne]
  · intro h1 h2 h3
    subst h1
    rcases h3 with h3 | h3
    · subst h3
      simp [pgstrom_respond_gpuscan, hctx', hctx, h2]
    · simp [pgstrom_respond_gpuscan, hctx', hctx, h2, h3.1, h3.2]
  · intro h1 h2
    subst h1
    simp [pgstrom_respond_gpuscan, hctx', hctx, h2, StromError_Success,
      StromError_CpuReCheck, StromError_DataStoreNoSpace]

/-- C9 witness: a CUDA failure status 999 in a live transaction is recorded
verbatim and the task goes to the front of the completed queue. -/
theorem C9_witness :
    (pgstrom_respond_gpuscan 999 true true c9recheck c9task c9gts).1.kerror.errcode = 999 ∧
    (pgstrom_respond_gpuscan 999 true true c9recheck c9task c9gts).2.completed_tasks =
      (pgstrom_respond_gpuscan 999 true true c9recheck c9task c9gts).1
        :: c9gts.completed_tasks := by
  have h := (C9_respond_amended 999 true c9recheck c9task c9gts (by decide)).2.1
    (by decide)
  exact ⟨h.1, h.2.2.2⟩

/-- C2: for a Row- or Hash-format chunk with index room left, record append
computes the aligned required size of header plus record and returns the
non-fatal false exactly when the minimum-length estimate for one more record
and the grown payload exceeds the chunk length; in particular a chunk sized to
hold exactly three 64-byte records accepts three inserts and rejects the
fourth with the false return, leaving the chunk unchanged. -/
theorem C2_append_backpressure :
    (∀ (s : KDS) (t : Tuple), s.format = KdsFormat.row → s.nitems < s.nrooms →
      ((PDS_insert_tuple s t).isFull = true ↔
        s.length < rowLengthEst s.ncols (s.nitems + 1) (requiredOf t + s.usage))) ∧
    (∀ (s : KDS) (t : Tuple) (hv : Nat),
      s.format = KdsFormat.hash → s.nitems < s.nrooms →
      ((PDS_insert_hashitem s t hv).isFull = true ↔
        s.length < hashLengthEst s.ncols (s.nitems + 1) (requiredOfHash t + s.usage))) ∧
    (∃ s3, insertAllRow (PDS_create_row 1 288) [c2rec, c2rec, c2rec] = some s3 ∧
      s3.nitems = 3 ∧ PDS_insert_tuple s3 c2rec = InsertResult.full s3) := by
  refine ⟨?_, ?_, ?_⟩
  · intro s t hf hr
    simp only [PDS_insert_tuple]
    rw [if_neg (by omega), if_neg (by simp [hf])]
    split_ifs with hc
    · simp [InsertResult.isFull, hc]
    · simp [InsertResult.isFull, hc]
  · intro s t hv hf hr
    simp only [PDS_insert_hashitem]
    rw [if_neg (by omega), if_neg (by simp [hf])]
    split_ifs with hc
    · simp [InsertResult.isFull, hc]
    · simp [InsertResult.isFull, hc]
  · exact ⟨_, rfl, rfl, rfl⟩

/-- C2 witness: the rejection condition evaluated on a concrete 96-byte Row
chunk and 64-byte record. -/
theorem C2_witness :
    (PDS_insert_tuple c10row c2rec).isFull = true ↔
      c10row.length < rowLengthEst c10row.ncols (c10row.nitems + 1)
        (requiredOf c2rec + c10row.usage) :=
  C2_append_backpressure.1 c10row c2rec rfl (by decide)

theorem getAppendLeft {α : Type} (l : List α) (x : α) (i : Nat) (hi : i < l.length)
    (h : i < (l ++ [x]).length) : (l ++ [x]).get ⟨i, h⟩ = l.get ⟨i, hi⟩ := by
  induction l generalizing i with
  | nil => exact absurd hi (by simp)
  | cons y ys ih =>
    cases i with
    | zero => rfl
    | succ j => exact ih j (by simpa using hi) (by simpa using h)

theorem getAppendLast {α : Type} (l : List α) (x : α)
    (h : l.length < (l ++ [x]).length) : (l ++ [x]).get ⟨l.length, h⟩ = x := by
  induction l with
  | nil => rfl
  | cons y ys ih => exact ih (by simp)

/-- Appending one record preserves the Row-chunk invariant: the raw effect of
the mutation block of `PDS_insert_tuple`, assuming the capacity check that
guards it. -/
theorem writeRecord_inv (s : KDS) (ts : List Tuple) (t : Tuple)
    (hinv : RowInv s ts)
    (hroom : rowLengthEst s.ncols (s.nitems + 1) (requiredOf t + s.usage) ≤ s.length) :
    RowInv
      { s with
        usage := s.usage + requiredOf t
        nitems := s.nitems + 1
        buf := writeIdx (writeTupitem s.buf (s.length - (s.usage + requiredOf t)) t)
                 (rowIndexAddr s.ncols s.nitems) (s.length - (s.usage + requiredOf t)) }
      (ts ++ [t]) := by
  obtain ⟨hfmt, hcount, hus, hbound, hidx, hlen, hself, hdata⟩ := hinv
  have hreq : tupHdrSz + t.t_len ≤ requiredOf t := requiredOf_ge t
  have hga := stromAlign_ge (sizeofCLUint * (s.nitems + 1))
  have hgb := stromAlign_ge (requiredOf t + s.usage)
  have h1 : headLen s.ncols + sizeofCLUint * (s.nitems + 1) +
      (requiredOf t + s.usage) ≤ s.length := by
    unfold rowLengthEst rowFrontLen at hroom
    omega
  have hpos4 : rowIndexAddr s.ncols s.nitems + sizeofCLUint ≤
      s.length - (s.usage + requiredOf t) := by
    unfold rowIndexAddr
    unfold sizeofCLUint at h1 ⊢
    omega
  have husreq : s.usage + requiredOf t ≤ s.length := by
    unfold sizeofCLUint at h1
    omega
  have hup : s.length - (s.usage + requiredOf t) + requiredOf t = s.length - s.usage := by
    omega
  have hlenn : (ts ++ [t]).length = ts.length + 1 := by simp
  refine ⟨hfmt, ?_, ?_, ?_, ?_, ?_, ?_, ?_⟩
  · show s.nitems + 1 = (ts ++ [t]).length
    rw [hlenn, hcount]
  · show s.usage + requiredOf t = usageOf (ts ++ [t])
    rw [usageOf_append, hus]
  · show rowLengthEst s.ncols (s.nitems + 1) (s.usage + requiredOf t) ≤ s.length
    rw [Nat.add_comm s.usage (requiredOf t)]
    exact hroom
  · -- the row-index cells
    intro i hi
    rw [hlenn] at hi
    dsimp only
    rcases (by omega : i < ts.length ∨ i = s.nitems) with hi' | hi'
    · rw [writeIdx_frame _ _ _ _ (Or.inl (by
        unfold rowIndexAddr
        unfold sizeofCLUint
        omega))]
      rw [writeTupitem_frame _ _ _ _ (Or.inl (by
        unfold rowIndexAddr at hpos4 ⊢
        unfold sizeofCLUint at hpos4 ⊢
        omega))]
      rw [posOf_append _ _ _ _ hi']
      exact hidx i hi'
    · subst hi'
      rw [writeIdx_at]
      have haddr : posOf s.length (ts ++ [t]) s.nitems =
          s.length - (s.usage + requiredOf t) := by
        rw [hcount, posOf_last, hus]
      rw [haddr]
  · -- the stored length words
    intro i hi
    dsimp only
    have hi2 : i < ts.length + 1 := by rw [hlenn] at hi; exact hi
    rcases (by omega : i < ts.length ∨ i = s.nitems) with hi' | hi'
    · have hget := getAppendLeft ts t i hi' hi
      have haddr : s.length - s.usage ≤ posOf s.length ts i := by
        rw [hus]; exact posOf_ge ts s.length i
      rw [posOf_append _ _ _ _ hi', hget]
      rw [writeIdx_frame _ _ _ _ (Or.inr (by omega))]
      rw [writeTupitem_frame _ _ _ _ (Or.inr (by omega))]
      exact hlen i hi'
    · subst hi'
      have haddr : posOf s.length (ts ++ [t]) s.nitems =
          s.length - (s.usage + requiredOf t) := by
        rw [hcount, posOf_last, hus]
      have hget : (ts ++ [t]).get ⟨s.nitems, hi⟩ = t := by
        have := getAppendLast ts t (by simp)
        rw [show (⟨s.nitems, hi⟩ : Fin (ts ++ [t]).length) = ⟨ts.length, by simp⟩ from
          Fin.ext hcount]
        exact this
      rw [haddr, hget]
      rw [writeIdx_frame _ _ _ _ (Or.inr (by omega))]
      rw [writeTupitem_at_len]
  · -- the stored item pointers
    intro i hi
    dsimp only
    have hi2 : i < ts.length + 1 := by rw [hlenn] at hi; exact hi
    rcases (by omega : i < ts.length ∨ i = s.nitems) with hi' | hi'
    · have hget := getAppendLeft ts t i hi' hi
      have haddr : s.length - s.usage ≤ posOf s.length ts i := by
        rw [hus]; exact posOf_ge ts s.length i
      rw [posOf_append _ _ _ _ hi', hget]
      rw [writeIdx_frame _ _ _ _ (Or.inr (by omega))]
      rw [writeTupitem_frame _ _ _ _ (Or.inr (by omega))]
      exact hself i hi'
    · subst hi'
      have haddr : posOf s.length (ts ++ [t]) s.nitems =
          s.length - (s.usage + requiredOf t) := by
        rw [hcount, posOf_last, hus]
      have hget : (ts ++ [t]).get ⟨s.nitems, hi⟩ = t := by
        have := getAppendLast ts t (by simp)
        rw [show (⟨s.nitems, hi⟩ : Fin (ts ++ [t]).length) = ⟨ts.length, by simp⟩ from
          Fin.ext hcount]
        exact this
      rw [haddr, hget]
      rw [writeIdx_frame _ _ _ _ (Or.inr (by omega))]
      rw [writeTupitem_at_self]
  · -- the stored payload bytes
    intro i hi k hk
    dsimp only
    have hi2 : i < ts.length + 1 := by rw [hlenn] at hi; exact hi
    rcases (by omega : i < ts.length ∨ i = s.nitems) with hi' | hi'
    · have hget := getAppendLeft ts t i hi' hi
      have haddr : s.length - s.usage ≤ posOf s.length ts i := by
        rw [hus]; exact posOf_ge ts s.length i
      rw [hget] at hk
      rw [posOf_append _ _ _ _ hi', hget]
      rw [writeIdx_frame _ _ _ _ (Or.inr (by omega))]
      rw [writeTupitem_frame _ _ _ _ (Or.inr (by omega))]
      exact hdata i hi' k hk
    · subst hi'
      have haddr : posOf s.length (ts ++ [t]) s.nitems =
          s.length - (s.usage + requiredOf t) := by
        rw [hcount, posOf_last, hus]
      have hget : (ts ++ [t]).get ⟨s.nitems, hi⟩ = t := by
        have := getAppendLast ts t (by simp)
        rw [show (⟨s.nitems, hi⟩ : Fin (ts ++ [t]).length) = ⟨ts.length, by simp⟩ from
          Fin.ext hcount]
        exact this
      rw [hget] at hk
      rw [haddr, hget]
      rw [writeIdx_frame _ _ _ _ (Or.inr (by omega))]
      rw [writeTupitem_at_data _ _ _ _ hk]

/-- A successful `PDS_insert_tuple` preserves the Row-chunk invariant with the
new record appended. -/
theorem insert_ok_inv (s : KDS) (ts : List Tuple) (t : Tuple) (s₁ : KDS)
    (hinv : RowInv s ts) (h : PDS_insert_tuple s t = InsertResult.ok s₁) :
    RowInv s₁ (ts ++ [t]) := by
  simp only [PDS_insert_tuple] at h
  split_ifs at h with h1 h2 h3
  injection h with h'
  subst h'
  exact writeRecord_inv s ts t hinv (by omega)

/-- Running a whole sequence of successful inserts preserves the invariant. -/
theorem insertAllRow_inv (rest : List Tuple) :
    ∀ (s : KDS) (ts : List Tuple) (s' : KDS),
      RowInv s ts → insertAllRow s rest = some s' → RowInv s' (ts ++ rest) := by
  induction rest with
  | nil =>
    intro s ts s' hinv h
    simp only [insertAllRow, Option.some.injEq] at h
    subst h
    simpa using hinv
  | cons t rest ih =>
    intro s ts s' hinv h
    simp only [insertAllRow] at h
    cases hres : PDS_insert_tuple s t with
    | ok s₁ =>
      rw [hres] at h
      have hinv₁ := insert_ok_inv s ts t s₁ hinv hres
      have hr := ih s₁ (ts ++ [t]) s' hinv₁ h
      simpa [List.append_assoc] using hr
    | full s₁ =>
      rw [hres] at h
      simp at h
    | fatal =>
      rw [hres] at h
      simp at h

/-- On an invariant-satisfying Row chunk, fetch at a valid index returns the
record that was inserted there. -/
theorem rowInv_fetch (s : KDS) (ts : List Tuple) (hinv : RowInv s ts)
    (i : Nat) (h : i < ts.length) :
    pgstrom_fetch_data_store s i = FetchResult.view (ts.get ⟨i, h⟩) := by
  unfold pgstrom_fetch_data_store kern_fetch_data_store
  rw [if_neg (by rw [hinv.count]; omega), if_pos hinv.fmt]
  have hidx : readCLUint s.buf (rowIndexAddr s.ncols i) = posOf s.length ts i := by
    unfold readCLUint
    rw [hinv.idxCell i h]
  rw [hidx]
  rw [readTupitem_mk s.buf (posOf s.length ts i) (ts.get ⟨i, h⟩)
    (hinv.lenCell i h) (hinv.selfCell i h) (hinv.dataCell i h)]

/-- A freshly created Row chunk satisfies the invariant for the empty record
list, provided the rounded size holds at least the header. -/
theorem rowInv_empty (ncols len : Nat) (hhead : headLen ncols ≤ stromAlignDown len) :
    RowInv (PDS_create_row ncols len) [] := by
  refine ⟨rfl, rfl, rfl, ?_, ?_, ?_, ?_, ?_⟩
  · show rowLengthEst ncols 0 0 ≤ stromAlignDown len
    unfold rowLengthEst rowFrontLen
    have h0 : stromAlign (sizeofCLUint * 0) = 0 := rfl
    have h1 : stromAlign 0 = 0 := rfl
    rw [h0, h1]
    omega
  · intro i hi
    exact absurd hi (by simp)
  · intro i hi
    exact absurd hi (by simp)
  · intro i hi
    exact absurd hi (by simp)
  · intro i hi
    exact absurd hi (by simp)

/-- C1: after any sequence of N individually successful `PDS_insert_tuple`
calls on a fresh Row chunk, the record count is N and fetching index i
returns the i-th inserted record — length, item pointer and payload bytes —
unchanged. -/
theorem C1_insert_fetch_roundtrip (ts : List Tuple) (ncols len : Nat) (s' : KDS)
    (hhead : headLen ncols ≤ stromAlignDown len)
    (h : insertAllRow (PDS_create_row ncols len) ts = some s') :
    s'.nitems = ts.length ∧
    ∀ i (hi : i < ts.length),
      pgstrom_fetch_data_store s' i = FetchResult.view (ts.get ⟨i, hi⟩) := by
  have hinv := insertAllRow_inv ts (PDS_create_row ncols len) [] s'
    (rowInv_empty ncols len hhead) h
  rw [List.nil_append] at hinv
  exact ⟨hinv.count, fun i hi => rowInv_fetch s' ts hinv i hi⟩

/-- C1 witness: inserting two concrete records into a 288-byte chunk gives
record count 2 and both records fetch back unchanged. -/
theorem C1_witness :
    c1res.nitems = 2 ∧
    pgstrom_fetch_data_store c1res 0 = FetchResult.view c1tupA ∧
    pgstrom_fetch_data_store c1res 1 = FetchResult.view c1tupB := by
  have h : insertAllRow (PDS_create_row 1 288) [c1tupA, c1tupB] = some c1res := rfl
  have r := C1_insert_fetch_roundtrip [c1tupA, c1tupB] 1 288 c1res (by decide) h
  exact ⟨r.1, r.2 0 (by decide), r.2 1 (by decide)⟩

theorem expandWriteIndex_frame (b old : Nat → Cell) (ncols shift : Nat)
    (n a : Nat) (h : a < headLen ncols ∨ headLen ncols + sizeofCLUint * n ≤ a) :
    expandWriteIndex b old ncols shift n a = b a := by
  induction n with
  | zero => rfl
  | succ m ih =>
    show writeIdx (expandWriteIndex b old ncols shift m) _ _ a = b a
    have h1 : a < rowIndexAddr ncols m ∨ rowIndexAddr ncols m + sizeofCLUint ≤ a := by
      unfold rowIndexAddr
      unfold sizeofCLUint at h ⊢
      omega
    have h2 : a < headLen ncols ∨ headLen ncols + sizeofCLUint * m ≤ a := by
      unfold sizeofCLUint at h ⊢
      omega
    rw [writeIdx_frame _ _ _ _ h1]
    exact ih h2

theorem expandWriteIndex_at (b old : Nat → Cell) (ncols shift : Nat)
    (n i : Nat) (hi : i < n) :
    expandWriteIndex b old ncols shift n (rowIndexAddr ncols i) =
      Cell.idx (readCLUint old (rowIndexAddr ncols i) + shift) := by
  induction n with
  | zero => omega
  | succ m ih =>
    show writeIdx (expandWriteIndex b old ncols shift m) _ _ _ = _
    rcases (by omega : i < m ∨ i = m) with h | h
    · rw [writeIdx_frame _ _ _ _ (Or.inl (by
        unfold rowIndexAddr
        unfold sizeofCLUint
        omega))]
      exact ih h
    · subst h
      rw [writeIdx_at]

/-- C4: expanding a Row/Hash chunk to an aligned strictly larger size that
exceeds the minimum-length estimate keeps the header and the counters, adds
the length difference to every row-index entry, and moves every payload byte —
hence every record, in order — toward the new buffer end by exactly that
difference. -/
theorem C4_expand_preserves (s : KDS) (newLen : Nat)
    (hfmt : s.format = KdsFormat.row ∨ s.format = KdsFormat.hash)
    (hLa : 16 ∣ s.length) (hNa : 16 ∣ newLen) (hgrow : s.length < newLen)
    (hest : (if s.format = KdsFormat.hash then hashLengthEst s.ncols s.nitems s.usage
             else rowLengthEst s.ncols s.nitems s.usage) < newLen)
    (hfront : headLen s.ncols + sizeofCLUint * s.nitems ≤ s.length - s.usage) :
    ∃ s₂, PDS_expand_size s newLen = ExpandResult.ok s₂ ∧
      s₂.length = newLen ∧ s₂.nitems = s.nitems ∧ s₂.usage = s.usage ∧
      s₂.ncols = s.ncols ∧ s₂.format = s.format ∧ s₂.nrooms = s.nrooms ∧
      (∀ a, a < headLen s.ncols → s₂.buf a = s.buf a) ∧
      (∀ i, i < s.nitems → s₂.buf (rowIndexAddr s.ncols i) =
        Cell.idx (readCLUint s.buf (rowIndexAddr s.ncols i) + (newLen - s.length))) ∧
      (∀ a, s.length - s.usage ≤ a → a < s.length →
        s₂.buf (a + (newLen - s.length)) = s.buf a) := by
  have hdown : stromAlignDown newLen = newLen := stromAlignDown_eq_self newLen hNa
  have hshift : stromAlignDown (newLen - s.length) = newLen - s.length :=
    stromAlignDown_eq_self _ (Nat.dvd_sub' hNa hLa)
  use { s with
        length := newLen
        buf := expandWriteIndex
                 (expandPayloadCopy s.buf s.ncols s.length s.usage (newLen - s.length))
                 s.buf s.ncols (newLen - s.length) s.nitems }
  refine ⟨?_, rfl, rfl, rfl, rfl, rfl, rfl, ?_, ?_, ?_⟩
  · simp only [PDS_expand_size]
    rw [hdown, if_neg (by omega), if_pos hfmt, if_neg (by omega), hshift]
  · intro a ha
    dsimp only
    rw [expandWriteIndex_frame _ _ _ _ _ _ (Or.inl ha)]
    unfold expandPayloadCopy
    rw [if_pos ha]
  · intro i hi
    dsimp only
    rw [expandWriteIndex_at _ _ _ _ _ i hi]
  · intro a h1 h2
    dsimp only
    have hfr : headLen s.ncols + sizeofCLUint * s.nitems ≤ a + (newLen - s.length) := by
      unfold sizeofCLUint at hfront ⊢
      omega
    rw [expandWriteIndex_frame _ _ _ _ _ _ (Or.inr hfr)]
    unfold expandPayloadCopy
    rw [if_neg (by
        unfold sizeofCLUint at hfr
        omega),
      if_pos (by omega)]
    have e : a + (newLen - s.length) - (newLen - s.length) = a := by omega
    rw [e]

/-- C5: a Slot-format chunk can only be expanded while its variable-length
area is empty: with nonzero usage the expansion raises a hard error, with
zero usage it succeeds and the fixed value/null-flag arrays are copied
verbatim. -/
theorem C5_expand_slot (s : KDS) (newLen : Nat) (hfmt : s.format = KdsFormat.slot)
    (hgrow : s.length < stromAlignDown newLen) :
    (0 < s.usage → PDS_expand_size s newLen = ExpandResult.err) ∧
    (s.usage = 0 → ∃ s₂, PDS_expand_size s newLen = ExpandResult.ok s₂ ∧
      s₂.length = stromAlignDown newLen ∧ s₂.nitems = s.nitems ∧
      s₂.usage = 0 ∧
      ∀ a, a < headLen s.ncols + slotRowSz s.ncols * s.nitems →
        s₂.buf a = s.buf a) := by
  constructor
  · intro hu
    simp only [PDS_expand_size]
    rw [if_neg (by omega), if_neg (by simp [hfmt]), if_pos hfmt, if_pos hu]
  · intro hu
    use { s with
          length := stromAlignDown newLen
          buf := fun a =>
            if a < headLen s.ncols + slotRowSz s.ncols * s.nitems then s.buf a
            else Cell.uninit }
    refine ⟨?_, rfl, rfl, hu, ?_⟩
    · simp only [PDS_expand_size]
      rw [if_neg (by omega), if_neg (by simp [hfmt]), if_pos hfmt, if_neg (by omega)]
    · intro a ha
      dsimp only
      rw [if_pos ha]

/-- C4 witness: expanding the one-record 288-byte chunk to 480 bytes shifts
its single index entry by 192. -/
theorem C4_witness :
    ((PDS_expand_size c4base 480).getD c4base).length = 480 ∧
    ((PDS_expand_size c4base 480).getD c4base).buf (rowIndexAddr 1 0) =
      Cell.idx (readCLUint c4base.buf (rowIndexAddr 1 0) + 192) := by
  obtain ⟨s₂, heq, hlen, -, -, -, -, -, -, hidx, -⟩ :=
    C4_expand_preserves c4base 480 (Or.inl rfl) (by decide) (by decide)
      (by decide) (by decide) (by decide)
  rw [heq]
  exact ⟨hlen, hidx 0 (by decide)⟩

/-- C5 witness: the used Slot chunk errors, the empty one expands to 320. -/
theorem C5_witness :
    PDS_expand_size c5slotUsed 320 = ExpandResult.err ∧
    ((PDS_expand_size c5slotEmpty 320).getD c5slotEmpty).length = 320 := by
  have h1 := (C5_expand_slot c5slotUsed 320 rfl (by decide)).1 (by decide)
  obtain ⟨s₂, heq, hlen, -, -, -⟩ :=
    (C5_expand_slot c5slotEmpty 320 rfl (by decide)).2 rfl
  rw [heq] at *
  exact ⟨h1, hlen⟩

theorem shrinkAdjustStep_zero (ncols shift p : Nat)
    (st : (Nat → Cell) × (Nat → Nat)) :
    shrinkAdjustStep ncols 0 shift p st =
      (writeIdx st.1 (rowIndexAddr ncols p)
        (readCLUint st.1 (rowIndexAddr ncols p) - shift), st.2) := rfl

theorem shrinkAdjustStep_hash (ncols nslots shift p : Nat)
    (st : (Nat → Cell) × (Nat → Nat)) (hns : nslots ≠ 0) (base' hv' : Nat)
    (hbase' : readCLUint st.1 (rowIndexAddr ncols p) - shift - hashitemTOff = base')
    (hcell' : writeIdx st.1 (rowIndexAddr ncols p)
        (readCLUint st.1 (rowIndexAddr ncols p) - shift) base' = Cell.hashv hv') :
    shrinkAdjustStep ncols nslots shift p st =
      ((fun a => if a = base' + 4 then Cell.nextv (st.2 (hv' % nslots))
        else writeIdx st.1 (rowIndexAddr ncols p)
          (readCLUint st.1 (rowIndexAddr ncols p) - shift) a),
       fun k => if k = hv' % nslots then base' else st.2 k) := by
  simp only [shrinkAdjustStep]
  rw [if_neg hns, hbase', hcell']

theorem shrinkAdjustLoop_spec (ncols nslots shift : Nat) (b0 : Nat → Cell)
    (hs0 : Nat → Nat) (n : Nat) (hbase hv : Nat → Nat)
    (hb : ∀ i, i < n →
      readCLUint b0 (rowIndexAddr ncols i) - shift - hashitemTOff = hbase i)
    (hsep : nslots ≠ 0 → ∀ i, i < n →
      headLen ncols + sizeofCLUint * n ≤ hbase i)
    (hcell : nslots ≠ 0 → ∀ i, i < n → b0 (hbase i) = Cell.hashv (hv i))
    (hgap : nslots ≠ 0 → ∀ i, i < n → ∀ k, k < n → i ≠ k →
      hbase i + 8 ≤ hbase k ∨ hbase k + 8 ≤ hbase i)
    (hzero : nslots ≠ 0 → ∀ j, hs0 j = 0) :
    ∀ m, m ≤ n →
      (∀ i, i < m →
        (shrinkAdjustLoop ncols nslots shift m (b0, hs0)).1 (rowIndexAddr ncols i) =
          Cell.idx (readCLUint b0 (rowIndexAddr ncols i) - shift)) ∧
      (∀ i, m ≤ i → i < n →
        (shrinkAdjustLoop ncols nslots shift m (b0, hs0)).1 (rowIndexAddr ncols i) =
          b0 (rowIndexAddr ncols i)) ∧
      (nslots = 0 → ∀ a, headLen ncols + sizeofCLUint * n ≤ a →
        (shrinkAdjustLoop ncols nslots shift m (b0, hs0)).1 a = b0 a) ∧
      (∀ a, headLen ncols + sizeofCLUint * n ≤ a →
        (∀ k, k < m → a ≠ hbase k + 4) →
        (shrinkAdjustLoop ncols nslots shift m (b0, hs0)).1 a = b0 a) ∧
      (nslots ≠ 0 → ∀ i, i < m →
        (shrinkAdjustLoop ncols nslots shift m (b0, hs0)).1 (hbase i + 4) =
          Cell.nextv (rebuiltHead nslots hbase hv i (hv i % nslots))) ∧
      (∀ j, (shrinkAdjustLoop ncols nslots shift m (b0, hs0)).2 j =
        if nslots = 0 then hs0 j else rebuiltHead nslots hbase hv m j) := by
  intro m
  induction m with
  | zero =>
    intro _
    refine ⟨?_, ?_, ?_, ?_, ?_, ?_⟩
    · intro i hi
      omega
    · intro i _ _
      rfl
    · intro _ a _
      rfl
    · intro a _ _
      rfl
    · intro _ i hi
      omega
    · intro j
      by_cases hns : nslots = 0
      · rw [if_pos hns]
        rfl
      · rw [if_neg hns]
        exact hzero hns j
  | succ p ih =>
    intro hm
    obtain ⟨ih1, ih2, ih3, ih4, ih5, ih6⟩ := ih (by omega)
    have hrip := ih2 p (by omega) (by omega)
    have hread : readCLUint (shrinkAdjustLoop ncols nslots shift p (b0, hs0)).1
        (rowIndexAddr ncols p) = readCLUint b0 (rowIndexAddr ncols p) := by
      unfold readCLUint
      rw [hrip]
    have hL : shrinkAdjustLoop ncols nslots shift (p + 1) (b0, hs0) =
        shrinkAdjustStep ncols nslots shift p
          (shrinkAdjustLoop ncols nslots shift p (b0, hs0)) := rfl
    by_cases hns : nslots = 0
    · subst hns
      have hstep : shrinkAdjustLoop ncols 0 shift (p + 1) (b0, hs0) =
          (writeIdx (shrinkAdjustLoop ncols 0 shift p (b0, hs0)).1
             (rowIndexAddr ncols p)
             (readCLUint (shrinkAdjustLoop ncols 0 shift p (b0, hs0)).1
               (rowIndexAddr ncols p) - shift),
           (shrinkAdjustLoop ncols 0 shift p (b0, hs0)).2) := by
        rw [hL, shrinkAdjustStep_zero]
      refine ⟨?_, ?_, ?_, ?_, ?_, ?_⟩
      · intro i hi
        rw [hstep]
        dsimp only
        rcases (by omega : i < p ∨ i = p) with h | h
        · rw [writeIdx_frame _ _ _ _ (Or.inl (by
            unfold rowIndexAddr
            unfold sizeofCLUint
            omega))]
          exact ih1 i h
        · subst h
          rw [writeIdx_at, hread]
      · intro i h1 h2
        rw [hstep]
        dsimp only
        rw [writeIdx_frame _ _ _ _ (Or.inr (by
          unfold rowIndexAddr
          unfold sizeofCLUint
          omega))]
        exact ih2 i (by omega) h2
      · intro _ a ha
        rw [hstep]
        dsimp only
        rw [writeIdx_frame _ _ _ _ (Or.inr (by
          unfold rowIndexAddr at *
          unfold sizeofCLUint at *
          omega))]
        exact ih3 rfl a ha
      · intro a ha _
        rw [hstep]
        dsimp only
        rw [writeIdx_frame _ _ _ _ (Or.inr (by
          unfold rowIndexAddr at *
          unfold sizeofCLUint at *
          omega))]
        exact ih3 rfl a ha
      · intro h0 i _
        exact absurd rfl h0
      · intro j
        rw [hstep]
        dsimp only
        rw [if_pos rfl]
        have h6 := ih6 j
        rw [if_pos rfl] at h6
        exact h6
    · have hbp := hb p (by omega)
      have hsepp := hsep hns p (by omega)
      have hexcp : ∀ k, k < p → hbase p ≠ hbase k + 4 := by
        intro k hk
        rcases hgap hns p (by omega) k (by omega) (by omega) with h | h <;> omega
      have hcellp : (shrinkAdjustLoop ncols nslots shift p (b0, hs0)).1 (hbase p) =
          Cell.hashv (hv p) := by
        rw [ih4 (hbase p) hsepp hexcp]
        exact hcell hns p (by omega)
      have hcellb1 : writeIdx (shrinkAdjustLoop ncols nslots shift p (b0, hs0)).1
          (rowIndexAddr ncols p)
          (readCLUint (shrinkAdjustLoop ncols nslots shift p (b0, hs0)).1
            (rowIndexAddr ncols p) - shift) (hbase p) = Cell.hashv (hv p) := by
        rw [writeIdx_frame _ _ _ _ (Or.inr (by
          unfold rowIndexAddr at *
          unfold sizeofCLUint at *
          omega))]
        exact hcellp
      have hbasep : readCLUint (shrinkAdjustLoop ncols nslots shift p (b0, hs0)).1
          (rowIndexAddr ncols p) - shift - hashitemTOff = hbase p := by
        rw [hread]
        exact hbp
      have hstep : shrinkAdjustLoop ncols nslots shift (p + 1) (b0, hs0) =
          ((fun a => if a = hbase p + 4 then
              Cell.nextv ((shrinkAdjustLoop ncols nslots shift p (b0, hs0)).2
                (hv p % nslots))
            else writeIdx (shrinkAdjustLoop ncols nslots shift p (b0, hs0)).1
              (rowIndexAddr ncols p)
              (readCLUint (shrinkAdjustLoop ncols nslots shift p (b0, hs0)).1
                (rowIndexAddr ncols p) - shift) a),
           fun k => if k = hv p % nslots then hbase p
             else (shrinkAdjustLoop ncols nslots shift p (b0, hs0)).2 k) := by
        rw [hL, shrinkAdjustStep_hash ncols nslots shift p _ hns (hbase p) (hv p)
          hbasep hcellb1]
      have hidxne : ∀ i, i < n → rowIndexAddr ncols i ≠ hbase p + 4 := by
        intro i hi
        unfold rowIndexAddr at *
        unfold sizeofCLUint at *
        omega
      refine ⟨?_, ?_, ?_, ?_, ?_, ?_⟩
      · intro i hi
        rw [hstep]
        dsimp only
        rw [if_neg (hidxne i (by omega))]
        rcases (by omega : i < p ∨ i = p) with h | h
        · rw [writeIdx_frame _ _ _ _ (Or.inl (by
            unfold rowIndexAddr
            unfold sizeofCLUint
            omega))]
          exact ih1 i h
        · subst h
          rw [writeIdx_at, hread]
      · intro i h1 h2
        rw [hstep]
        dsimp only
        rw [if_neg (hidxne i h2)]
        rw [writeIdx_frame _ _ _ _ (Or.inr (by
          unfold rowIndexAddr
          unfold sizeofCLUint
          omega))]
        exact ih2 i (by omega) h2
      · intro h0
        exact absurd h0 hns
      · intro a ha hexc
        rw [hstep]
        dsimp only
        rw [if_neg (hexc p (by omega))]
        rw [writeIdx_frame _ _ _ _ (Or.inr (by
          unfold rowIndexAddr at *
          unfold sizeofCLUint at *
          omega))]
        exact ih4 a ha (fun k hk => hexc k (by omega))
      · intro _ i hi
        rw [hstep]
        dsimp only
        rcases (by omega : i < p ∨ i = p) with h | h
        · rw [if_neg (by
            rcases hgap hns i (by omega) p (by omega) (by omega) with hg | hg <;>
              omega)]
          rw [writeIdx_frame _ _ _ _ (Or.inr (by
            have := hsep hns i (by omega)
            unfold rowIndexAddr at *
            unfold sizeofCLUint at *
            omega))]
          exact ih5 hns i h
        · subst h
          rw [if_pos rfl]
          have h6 := ih6 (hv i % nslots)
          rw [if_neg hns] at h6
          rw [h6]
      · intro j
        rw [hstep]
        dsimp only
        rw [if_neg hns]
        show (if j = hv p % nslots then hbase p
          else (shrinkAdjustLoop ncols nslots shift p (b0, hs0)).2 j) =
            rebuiltHead nslots hbase hv (p + 1) j
        by_cases hj : j = hv p % nslots
        · rw [if_pos hj]
          show _ = if hv p % nslots = j then hbase p
            else rebuiltHead nslots hbase hv p j
          rw [if_pos hj.symm]
        · rw [if_neg hj]
          have h6 := ih6 j
          rw [if_neg hns] at h6
          rw [h6]
          show rebuiltHead nslots hbase hv p j =
            if hv p % nslots = j then hbase p else rebuiltHead nslots hbase hv p j
          rw [if_neg (fun h => hj h.symm)]

/-- C6 counterexample: a Row chunk whose aligned slack is exactly one page
(8192 bytes) with 1500 records.  The slack is neither below one page nor below
the 4-byte-per-record row-index footprint, so the claim says the chunk is
compacted — but the code compares against `sizeof(Datum) = 8` bytes per record
(12000) and leaves the chunk untouched. -/
theorem C6_counterexample :
    PDS_shrink_size c6noop = ShrinkResult.ok c6noop ∧
    ¬ (shrinkShift c6noop < BLCKSZ ∨
       shrinkShift c6noop < sizeofCLUint * c6noop.nitems) := by
  constructor
  · rfl
  · decide

set_option maxHeartbeats 2000000 in
/-- C6 amended: shrink of a Row/Hash chunk is a no-op exactly when the aligned
slack is below one storage page or below eight bytes — `sizeof(Datum)`, twice
the 4-byte index-entry footprint — per record; otherwise the chunk shrinks by
the slack: every index entry is decremented by it, every payload byte (hence
every record, in order) moves toward the front by it — for Hash format every
byte except each item's chain-pointer field — and for a built Hash table the
bucket array is cleared and fully rebuilt by head-insertion over the moved
records: bucket j ends up holding the last moved item whose hash modulo
nslots is j (empty otherwise) and each item's chain pointer receives the
previous head of its bucket. -/
theorem C6_shrink_amended (s : KDS) (hv : Nat → Nat)
    (hfmt : s.format = KdsFormat.row ∨ s.format = KdsFormat.hash)
    (hslots0 : s.format = KdsFormat.row → s.nslots = 0)
    (hbounds : 0 < s.nslots → ∀ i, i < s.nitems →
      s.length - s.usage + hashitemTOff ≤
        readCLUint s.buf (rowIndexAddr s.ncols i) ∧
      readCLUint s.buf (rowIndexAddr s.ncols i) < s.length)
    (hhash : 0 < s.nslots → ∀ i, i < s.nitems →
      s.buf (readCLUint s.buf (rowIndexAddr s.ncols i) - hashitemTOff) =
        Cell.hashv (hv i))
    (hgap : 0 < s.nslots → ∀ i, i < s.nitems → ∀ k, k < s.nitems → i ≠ k →
      readCLUint s.buf (rowIndexAddr s.ncols i) + 8 ≤
        readCLUint s.buf (rowIndexAddr s.ncols k) ∨
      readCLUint s.buf (rowIndexAddr s.ncols k) + 8 ≤
        readCLUint s.buf (rowIndexAddr s.ncols i)) :
    (shrinkShift s < BLCKSZ ∨ shrinkShift s < sizeofDatum * s.nitems →
      PDS_shrink_size s = ShrinkResult.ok s) ∧
    (¬ (shrinkShift s < BLCKSZ ∨ shrinkShift s < sizeofDatum * s.nitems) →
      ∃ s₂, PDS_shrink_size s = ShrinkResult.ok s₂ ∧
        s₂.length = s.length - shrinkShift s ∧ s₂.length < s.length ∧
        s₂.nitems = s.nitems ∧ s₂.usage = s.usage ∧ s₂.format = s.format ∧
        (∀ i, i < s.nitems → s₂.buf (rowIndexAddr s.ncols i) =
          Cell.idx (readCLUint s.buf (rowIndexAddr s.ncols i) - shrinkShift s)) ∧
        (s.format = KdsFormat.row →
          ∀ a, s.length - s.usage ≤ a → a < s.length →
            s₂.buf (a - shrinkShift s) = s.buf a) ∧
        (s.format = KdsFormat.hash →
          ∀ a, s.length - s.usage ≤ a → a < s.length →
            (∀ i, i < s.nitems →
              a ≠ readCLUint s.buf (rowIndexAddr s.ncols i) - hashitemTOff + 4) →
            s₂.buf (a - shrinkShift s) = s.buf a) ∧
        (0 < s.nslots → ∀ i, i < s.nitems →
          s₂.buf (readCLUint s.buf (rowIndexAddr s.ncols i) - shrinkShift s -
              hashitemTOff + 4) =
            Cell.nextv (rebuiltHead s.nslots
              (fun k => readCLUint s.buf (rowIndexAddr s.ncols k) -
                shrinkShift s - hashitemTOff) hv i (hv i % s.nslots))) ∧
        (0 < s.nslots → ∀ j, s₂.hashSlot j =
          rebuiltHead s.nslots
            (fun k => readCLUint s.buf (rowIndexAddr s.ncols k) -
              shrinkShift s - hashitemTOff) hv s.nitems j)) := by
  constructor
  · intro hcond
    unfold PDS_shrink_size
    rw [if_pos hfmt, if_pos hcond]
  · intro hcond
    have hB : BLCKSZ ≤ shrinkShift s := by omega
    have hpos : 0 < shrinkShift s := by
      unfold BLCKSZ at hB
      omega
    have hshle : shrinkShift s ≤ s.length - shrinkEst s := stromAlignDown_le _
    have hestle : shrinkEst s ≤ s.length := by
      by_contra hgt
      push_neg at hgt
      have h0 : s.length - shrinkEst s = 0 := by omega
      have h1 : shrinkShift s = 0 := by
        unfold shrinkShift at *
        rw [h0]
        rfl
      omega
    have hfrontlow : headLen s.ncols + sizeofCLUint * s.nitems ≤ shrinkFront s := by
      rcases hfmt with hf | hf
      · unfold shrinkFront rowFrontLen
        rw [hf]
        have := stromAlign_ge (sizeofCLUint * s.nitems)
        simp only [show (KdsFormat.row = KdsFormat.hash) = False by simp,
          if_false]
        omega
      · unfold shrinkFront hashFrontLen
        rw [hf, if_pos rfl]
        have := stromAlign_ge (sizeofCLUint * s.nitems)
        omega
    have hestfront : shrinkFront s + s.usage ≤ shrinkEst s := by
      rcases hfmt with hf | hf
      · unfold shrinkEst shrinkFront rowLengthEst
        rw [hf]
        have := stromAlign_ge s.usage
        simp only [show (KdsFormat.row = KdsFormat.hash) = False by simp,
          if_false]
        omega
      · unfold shrinkEst shrinkFront hashLengthEst
        rw [hf, if_pos rfl, if_pos rfl]
        have := stromAlign_ge s.usage
        omega
    have hnsfmt : s.nslots ≠ 0 → s.format = KdsFormat.hash := by
      intro hns
      rcases hfmt with hf | hf
      · exact absurd (hslots0 hf) hns
      · exact hf
    have hfronthash : s.nslots ≠ 0 → 0 < s.nitems →
        headLen s.ncols + 16 + sizeofCLUint * s.nitems ≤ shrinkFront s := by
      intro hns hn
      have hf := hnsfmt hns
      unfold shrinkFront hashFrontLen
      rw [hf, if_pos rfl]
      have h16 : 16 ≤ stromAlign (sizeofCLUint * kdsNSlots s.nitems) := by
        have hge := stromAlign_ge (sizeofCLUint * kdsNSlots s.nitems)
        have hdvd : 16 ∣ stromAlign (sizeofCLUint * kdsNSlots s.nitems) :=
          ⟨(sizeofCLUint * kdsNSlots s.nitems + 15) / 16, rfl⟩
        have hpos' : 0 < sizeofCLUint * kdsNSlots s.nitems := by
          unfold sizeofCLUint kdsNSlots
          omega
        omega
      have := stromAlign_ge (sizeofCLUint * s.nitems)
      omega
    have hb0idx : ∀ i, i < s.nitems →
        (fun a => if shrinkFront s ≤ a ∧
            a < shrinkFront s + (s.length - shrinkShift s) then
            s.buf (a + shrinkShift s)
          else s.buf a) (rowIndexAddr s.ncols i) = s.buf (rowIndexAddr s.ncols i) := by
      intro i hi
      dsimp only
      rw [if_neg (by
        unfold rowIndexAddr at *
        unfold sizeofCLUint at hfrontlow ⊢
        omega)]
    have hreadb0 : ∀ i, i < s.nitems →
        readCLUint (fun a => if shrinkFront s ≤ a ∧
            a < shrinkFront s + (s.length - shrinkShift s) then
            s.buf (a + shrinkShift s)
          else s.buf a) (rowIndexAddr s.ncols i) =
        readCLUint s.buf (rowIndexAddr s.ncols i) := by
      intro i hi
      unfold readCLUint
      rw [hb0idx i hi]
    have hbArg : ∀ i, i < s.nitems →
        readCLUint (fun a => if shrinkFront s ≤ a ∧
            a < shrinkFront s + (s.length - shrinkShift s) then
            s.buf (a + shrinkShift s)
          else s.buf a) (rowIndexAddr s.ncols i) - shrinkShift s - hashitemTOff =
        readCLUint s.buf (rowIndexAddr s.ncols i) - shrinkShift s - hashitemTOff := by
      intro i hi
      rw [hreadb0 i hi]
    have hsepArg : s.nslots ≠ 0 → ∀ i, i < s.nitems →
        headLen s.ncols + sizeofCLUint * s.nitems ≤
          readCLUint s.buf (rowIndexAddr s.ncols i) - shrinkShift s -
            hashitemTOff := by
      intro hns i hi
      have h01 : 0 < s.nslots := Nat.pos_of_ne_zero hns
      have hb1 := (hbounds h01 i hi).1
      have hb2 := (hbounds h01 i hi).2
      have hfh := hfronthash hns (by omega)
      unfold hashitemTOff at *
      unfold sizeofCLUint at *
      omega
    have hcellArg : s.nslots ≠ 0 → ∀ i, i < s.nitems →
        (fun a => if shrinkFront s ≤ a ∧
            a < shrinkFront s + (s.length - shrinkShift s) then
            s.buf (a + shrinkShift s)
          else s.buf a)
          (readCLUint s.buf (rowIndexAddr s.ncols i) - shrinkShift s -
            hashitemTOff) = Cell.hashv (hv i) := by
      intro hns i hi
      have h01 : 0 < s.nslots := Nat.pos_of_ne_zero hns
      have hb1 := (hbounds h01 i hi).1
      have hb2 := (hbounds h01 i hi).2
      have hfh := hfronthash hns (by omega)
      dsimp only
      rw [if_pos (by
        constructor <;>
          (unfold hashitemTOff at *
           omega))]
      have e : readCLUint s.buf (rowIndexAddr s.ncols i) - shrinkShift s -
          hashitemTOff + shrinkShift s =
          readCLUint s.buf (rowIndexAddr s.ncols i) - hashitemTOff := by
        unfold hashitemTOff at *
        omega
      rw [e]
      exact hhash h01 i hi
    have hgapArg : s.nslots ≠ 0 → ∀ i, i < s.nitems → ∀ k, k < s.nitems →
        i ≠ k →
        readCLUint s.buf (rowIndexAddr s.ncols i) - shrinkShift s -
            hashitemTOff + 8 ≤
          readCLUint s.buf (rowIndexAddr s.ncols k) - shrinkShift s -
            hashitemTOff ∨
        readCLUint s.buf (rowIndexAddr s.ncols k) - shrinkShift s -
            hashitemTOff + 8 ≤
          readCLUint s.buf (rowIndexAddr s.ncols i) - shrinkShift s -
            hashitemTOff := by
      intro hns i hi k hk hik
      have h01 : 0 < s.nslots := Nat.pos_of_ne_zero hns
      have hbi := hbounds h01 i hi
      have hbk := hbounds h01 k hk
      have hg := hgap h01 i hi k hk hik
      have hfh := hfronthash hns (by omega)
      unfold hashitemTOff at *
      unfold sizeofCLUint at *
      omega
    have hzeroArg : s.nslots ≠ 0 → ∀ j,
        (if 0 < s.nslots then (fun _ => (0 : Nat)) else s.hashSlot) j = 0 := by
      intro hns j
      rw [if_pos (Nat.pos_of_ne_zero hns)]
    obtain ⟨l1, l2, l3, l4, l5, l6⟩ :=
      shrinkAdjustLoop_spec s.ncols s.nslots (shrinkShift s)
        (fun a => if shrinkFront s ≤ a ∧
            a < shrinkFront s + (s.length - shrinkShift s) then
            s.buf (a + shrinkShift s)
          else s.buf a)
        (if 0 < s.nslots then fun _ => 0 else s.hashSlot)
        s.nitems
        (fun k => readCLUint s.buf (rowIndexAddr s.ncols k) - shrinkShift s -
          hashitemTOff)
        hv hbArg hsepArg hcellArg hgapArg hzeroArg s.nitems (Nat.le_refl _)
    use { s with
          length := s.length - shrinkShift s
          buf := (shrinkAdjustLoop s.ncols s.nslots (shrinkShift s) s.nitems
            ((fun a => if shrinkFront s ≤ a ∧
                a < shrinkFront s + (s.length - shrinkShift s) then
                s.buf (a + shrinkShift s)
              else s.buf a),
             (if 0 < s.nslots then fun _ => 0 else s.hashSlot))).1
          hashSlot := (shrinkAdjustLoop s.ncols s.nslots (shrinkShift s) s.nitems
            ((fun a => if shrinkFront s ≤ a ∧
                a < shrinkFront s + (s.length - shrinkShift s) then
                s.buf (a + shrinkShift s)
              else s.buf a),
             (if 0 < s.nslots then fun _ => 0 else s.hashSlot))).2 }
    refine ⟨?_, rfl, by dsimp only; omega, rfl, rfl, rfl, ?_, ?_, ?_, ?_, ?_⟩
    · unfold PDS_shrink_size
      rw [if_pos hfmt, if_neg hcond]
    · intro i hi
      dsimp only
      rw [l1 i hi, hreadb0 i hi]
    · intro hf a h1 h2
      dsimp only
      have hns0 : s.nslots = 0 := hslots0 hf
      have hge : headLen s.ncols + sizeofCLUint * s.nitems ≤ a - shrinkShift s := by
        unfold sizeofCLUint at hfrontlow ⊢
        omega
      rw [l3 hns0 (a - shrinkShift s) hge]
      rw [if_pos (by constructor <;> omega)]
      have e : a - shrinkShift s + shrinkShift s = a := by omega
      rw [e]
    · intro hf a h1 h2 hexc
      dsimp only
      have hge : headLen s.ncols + sizeofCLUint * s.nitems ≤ a - shrinkShift s := by
        unfold sizeofCLUint at hfrontlow ⊢
        omega
      by_cases hns : s.nslots = 0
      · rw [l3 hns (a - shrinkShift s) hge]
        rw [if_pos (by constructor <;> omega)]
        have e : a - shrinkShift s + shrinkShift s = a := by omega
        rw [e]
      · have h01 : 0 < s.nslots := Nat.pos_of_ne_zero hns
        have hexcB : ∀ k, k < s.nitems → a - shrinkShift s ≠
            readCLUint s.buf (rowIndexAddr s.ncols k) - shrinkShift s -
              hashitemTOff + 4 := by
          intro k hk
          have hbk := hbounds h01 k hk
          have hx := hexc k hk
          have hfh := hfronthash hns (by omega)
          unfold hashitemTOff at *
          omega
        rw [l4 (a - shrinkShift s) hge hexcB]
        rw [if_pos (by constructor <;> omega)]
        have e : a - shrinkShift s + shrinkShift s = a := by omega
        rw [e]
    · intro h01 i hi
      dsimp only
      exact l5 (by omega) i hi
    · intro h01 j
      dsimp only
      rw [l6 j, if_neg (by omega)]

/-- C6 witness: a Row chunk of 8640 bytes with one 64-byte record shrinks to
160 bytes with its index entry dropping from 8576 to 96; the two-item Hash
chunk compacts with its bucket table rebuilt — both items hash into bucket 2,
whose head becomes the relocated second item (144), chained to the relocated
first item (112) whose moved hash cell is intact, while bucket 0 stays
empty. -/
theorem C6_witness :
    ((PDS_shrink_size c6compact).getD c6compact).length = 160 ∧
    ((PDS_shrink_size c6compact).getD c6compact).buf (rowIndexAddr 1 0) =
      Cell.idx 96 ∧
    ((PDS_shrink_size c6hash).getD c6hash).hashSlot 2 = 144 ∧
    ((PDS_shrink_size c6hash).getD c6hash).hashSlot 0 = 0 ∧
    ((PDS_shrink_size c6hash).getD c6hash).buf 148 = Cell.nextv 112 ∧
    ((PDS_shrink_size c6hash).getD c6hash).buf 112 = Cell.hashv 5 := by
  obtain ⟨-, hrow⟩ := C6_shrink_amended c6compact (fun _ => 0) (Or.inl rfl)
    (fun _ => rfl)
    (by intro h; exact absurd h (by decide))
    (by intro h; exact absurd h (by decide))
    (by intro h; exact absurd h (by decide))
  obtain ⟨s₂, heq, hlen, -, -, -, -, hidx, -, -, -, -⟩ := hrow (by decide)
  obtain ⟨-, hhsh⟩ := C6_shrink_amended c6hash c6hashHv (Or.inr rfl)
    (by intro h; exact absurd h (by decide))
    (by decide) (by decide) (by decide)
  obtain ⟨t₂, heq2, -, -, -, -, -, -, -, hmove, hnext, hslots⟩ := hhsh (by decide)
  rw [heq, heq2]
  exact ⟨hlen, hidx 0 (by decide), hslots (by decide) 2, hslots (by decide) 0,
    hnext (by decide) 1 (by decide),
    hmove rfl 8336 (by decide) (by decide) (by decide)⟩

theorem usageOf_cons (t : Tuple) (ts : List Tuple) :
    usageOf (t :: ts) = requiredOf t + usageOf ts := by
  simp [usageOf]

theorem visibleTuples_notNormal (rest : List PageItem) :
    visibleTuples (PageItem.notNormal :: rest) = visibleTuples rest := rfl

theorem visibleTuples_invisible (t : Tuple) (rest : List PageItem) :
    visibleTuples (PageItem.tupleItem false t :: rest) = visibleTuples rest := rfl

theorem visibleTuples_visible (t : Tuple) (rest : List PageItem) :
    visibleTuples (PageItem.tupleItem true t :: rest) =
      t :: visibleTuples rest := rfl

theorem visibleTuples_length_le (page : List PageItem) :
    (visibleTuples page).length ≤ page.length := by
  induction page with
  | nil => exact Nat.le_refl 0
  | cons it rest ih =>
    cases it with
    | notNormal =>
      rw [visibleTuples_notNormal]
      exact Nat.le_succ_of_le ih
    | tupleItem vis t =>
      cases vis
      · rw [visibleTuples_invisible]
        exact Nat.le_succ_of_le ih
      · rw [visibleTuples_visible]
        exact Nat.succ_le_succ ih

theorem usageOf_visible_le (page : List PageItem) :
    usageOf (visibleTuples page) ≤ 12 * page.length + pageCost page := by
  induction page with
  | nil => simp [usageOf, pageCost, visibleTuples]
  | cons it rest ih =>
    cases it with
    | notNormal =>
      rw [visibleTuples_notNormal]
      have hc : pageCost (PageItem.notNormal :: rest) = 0 + pageCost rest := by
        simp [pageCost, pageItemCost]
      simp only [List.length_cons, hc]
      omega
    | tupleItem vis t =>
      have hc : pageCost (PageItem.tupleItem vis t :: rest) =
          4 + longAlign t.t_len + pageCost rest := by
        simp [pageCost, pageItemCost, Nat.add_assoc]
      cases vis
      · rw [visibleTuples_invisible]
        simp only [List.length_cons, hc]
        omega
      · rw [visibleTuples_visible, usageOf_cons]
        have hr := requiredOf_le t
        simp only [List.length_cons, hc]
        omega

theorem rowLengthEst_mono (ncols n1 n2 u1 u2 : Nat) (hn : n1 ≤ n2) (hu : u1 ≤ u2) :
    rowLengthEst ncols n1 u1 ≤ rowLengthEst ncols n2 u2 := by
  unfold rowLengthEst rowFrontLen
  have h1 := stromAlign_mono (sizeofCLUint * n1) (sizeofCLUint * n2)
    (by unfold sizeofCLUint; omega)
  have h2 := stromAlign_mono u1 u2 hu
  omega

/-- The worst-case Hash-length check of `PDS_insert_block` really covers the
Row-length requirement of absorbing every visible record of a page, for any
page whose line pointers and aligned tuples fit in one storage page. -/
theorem blockBudget (ncols n0 usage : Nat) (page : List PageItem)
    (hpage : 24 + pageCost page ≤ BLCKSZ) :
    rowLengthEst ncols (n0 + (visibleTuples page).length)
        (usage + usageOf (visibleTuples page)) ≤
      hashLengthEst ncols (n0 + page.length)
        (tupHdrSz * page.length + BLCKSZ + usage) := by
  have hcnt := visibleTuples_length_le page
  have husg := usageOf_visible_le page
  unfold rowLengthEst rowFrontLen hashLengthEst hashFrontLen
  have h1 := stromAlign_mono (sizeofCLUint * (n0 + (visibleTuples page).length))
    (sizeofCLUint * (n0 + page.length)) (by unfold sizeofCLUint; omega)
  have h2 := stromAlign_ge (sizeofCLUint * kdsNSlots (n0 + page.length))
  have h3 := stromAlign_ge (tupHdrSz * page.length + BLCKSZ + usage)
  have h4 := stromAlign_le (usage + usageOf (visibleTuples page))
  have h5 : n0 + page.length ≤ kdsNSlots (n0 + page.length) := by
    unfold kdsNSlots
    omega
  unfold sizeofCLUint tupHdrSz BLCKSZ at *
  omega

theorem insertBlockLoop_spec (items : List PageItem) :
    ∀ (n0 nt : Nat) (s : KDS) (ts : List Tuple),
      RowInv s ts → s.nitems = n0 + nt →
      rowLengthEst s.ncols (s.nitems + (visibleTuples items).length)
          (s.usage + usageOf (visibleTuples items)) ≤ s.length →
      ∃ b₂, insertBlockLoop s.length s.ncols n0 items nt s.usage s.buf =
          (nt + (visibleTuples items).length,
           s.usage + usageOf (visibleTuples items), b₂) ∧
        RowInv { s with
                 nitems := s.nitems + (visibleTuples items).length
                 usage := s.usage + usageOf (visibleTuples items)
                 buf := b₂ }
          (ts ++ visibleTuples items) := by
  induction items with
  | nil =>
    intro n0 nt s ts hinv hnt hfit
    refine ⟨s.buf, ?_, ?_⟩
    · show (nt, s.usage, s.buf) = _
      simp [visibleTuples, usageOf]
    · simpa [visibleTuples, usageOf] using hinv
  | cons it rest ih =>
    intro n0 nt s ts hinv hnt hfit
    cases it with
    | notNormal =>
      rw [visibleTuples_notNormal] at hfit ⊢
      exact ih n0 nt s ts hinv hnt hfit
    | tupleItem vis t =>
      cases vis
      · rw [visibleTuples_invisible] at hfit ⊢
        exact ih n0 nt s ts hinv hnt hfit
      · rw [visibleTuples_visible] at hfit ⊢
        have hroom : rowLengthEst s.ncols (s.nitems + 1)
            (requiredOf t + s.usage) ≤ s.length := by
          refine le_trans ?_ hfit
          refine rowLengthEst_mono _ _ _ _ _ (by simp) ?_
          rw [usageOf_cons]
          omega
        have hinv' := writeRecord_inv s ts t hinv hroom
        have hfit' : rowLengthEst s.ncols
            ((s.nitems + 1) + (visibleTuples rest).length)
            ((s.usage + requiredOf t) + usageOf (visibleTuples rest)) ≤ s.length := by
          have e1 : (s.nitems + 1) + (visibleTuples rest).length =
              s.nitems + (t :: visibleTuples rest).length := by
            simp
            omega
          have e2 : (s.usage + requiredOf t) + usageOf (visibleTuples rest) =
              s.usage + usageOf (t :: visibleTuples rest) := by
            rw [usageOf_cons]
            omega
          rw [e1, e2]
          exact hfit
        obtain ⟨b₂, heq, hinv₂⟩ := ih n0 (nt + 1)
          { s with
            usage := s.usage + requiredOf t
            nitems := s.nitems + 1
            buf := writeIdx (writeTupitem s.buf (s.length - (s.usage + requiredOf t)) t)
                     (rowIndexAddr s.ncols s.nitems)
                     (s.length - (s.usage + requiredOf t)) }
          (ts ++ [t]) hinv' (by dsimp only; omega) (by dsimp only; exact hfit')
        dsimp only at heq hinv₂
        refine ⟨b₂, ?_, ?_⟩
        · show insertBlockLoop s.length s.ncols n0 rest (nt + 1)
              (s.usage + requiredOf t)
              (writeIdx (writeTupitem s.buf (s.length - (s.usage + requiredOf t)) t)
                (rowIndexAddr s.ncols (n0 + nt))
                (s.length - (s.usage + requiredOf t))) = _
          rw [← hnt, heq]
          have e1 : nt + 1 + (visibleTuples rest).length =
              nt + (t :: visibleTuples rest).length := by
            simp only [List.length_cons]
            omega
          have e2 : s.usage + requiredOf t + usageOf (visibleTuples rest) =
              s.usage + usageOf (t :: visibleTuples rest) := by
            rw [usageOf_cons]
            omega
          rw [e1, e2]
        · have e1 : s.nitems + 1 + (visibleTuples rest).length =
              s.nitems + (t :: visibleTuples rest).length := by
            simp
            omega
          have e2 : s.usage + requiredOf t + usageOf (visibleTuples rest) =
              s.usage + usageOf (t :: visibleTuples rest) := by
            rw [usageOf_cons]
            omega
          rw [← e1, ← e2]
          simpa [List.append_assoc] using hinv₂

/-- C8: `PDS_insert_block` either rejects the whole page — when the worst-case
space the page could need exceeds the chunk length, it returns the -1 full
sentinel with the chunk bit-for-bit unchanged — or absorbs every visible
record of the page: it returns their count, increments the record count and
usage accordingly, and afterwards every record (pre-existing and new, in
order) fetches back unchanged. -/
theorem C8_insert_block (s : KDS) (ts : List Tuple) (page : List PageItem)
    (hinv : RowInv s ts) (hpage : 24 + pageCost page ≤ BLCKSZ) :
    (s.length < hashLengthEst s.ncols (s.nitems + page.length)
        (tupHdrSz * page.length + BLCKSZ + s.usage) →
      PDS_insert_block s page = (-1, s)) ∧
    (hashLengthEst s.ncols (s.nitems + page.length)
        (tupHdrSz * page.length + BLCKSZ + s.usage) ≤ s.length →
      ∃ s₂, PDS_insert_block s page = (((visibleTuples page).length : Int), s₂) ∧
        s₂.nitems = s.nitems + (visibleTuples page).length ∧
        s₂.usage = s.usage + usageOf (visibleTuples page) ∧
        RowInv s₂ (ts ++ visibleTuples page) ∧
        ∀ i (hi : i < (ts ++ visibleTuples page).length),
          pgstrom_fetch_data_store s₂ i =
            FetchResult.view ((ts ++ visibleTuples page).get ⟨i, hi⟩)) := by
  constructor
  · intro hfull
    simp only [PDS_insert_block]
    rw [if_pos hfull]
  · intro hle
    have hfit : rowLengthEst s.ncols (s.nitems + (visibleTuples page).length)
        (s.usage + usageOf (visibleTuples page)) ≤ s.length :=
      le_trans (blockBudget s.ncols s.nitems s.usage page hpage) hle
    have hcnt : s.nitems = s.nitems + 0 := rfl
    obtain ⟨b₂, heq, hinv₂⟩ :=
      insertBlockLoop_spec page s.nitems 0 s ts hinv hcnt hfit
    refine ⟨{ s with
              nitems := s.nitems + (visibleTuples page).length
              usage := s.usage + usageOf (visibleTuples page)
              buf := b₂ }, ?_, rfl, rfl, hinv₂, ?_⟩
    · simp only [PDS_insert_block]
      rw [if_neg (by omega), heq]
      simp only [Nat.zero_add]
    · intro i hi
      have h := rowInv_fetch _ _ hinv₂ i (by simpa using hi)
      exact h

/-- C8 witness: on the four-line example page, the 160-byte chunk returns the
full sentinel unchanged while the 12800-byte chunk absorbs both visible
records. -/
theorem C8_witness :
    (PDS_insert_block c8small c8page).1 = -1 ∧
    (PDS_insert_block c8small c8page).2.nitems = c8small.nitems ∧
    (PDS_insert_block c8small c8page).2.usage = c8small.usage ∧
    (PDS_insert_block c8big c8page).1 = 2 := by
  have hsmall := (C8_insert_block c8small [] c8page
    (rowInv_empty 1 160 (by decide)) (by decide)).1 (by decide)
  obtain ⟨s₂, heq, -, -, -, -⟩ := (C8_insert_block c8big [] c8page
    (rowInv_empty 1 12800 (by decide)) (by decide)).2 (by decide)
  rw [hsmall, heq]
  exact ⟨rfl, rfl, rfl, rfl⟩

end PgStrom
